import Mathlib

/-!
Verification development for the `nu_plugin_unzip` plugin (src/lib.rs).

The plugin exposes two operations over an opened zip archive:
`list_files` builds one row (name, size, modified) per decodable entry, and
`unzip_file` extracts entries onto a filesystem, sanitizing entry names with
the zip crate's `enclosed_name`, enforcing the `--force` overwrite policy and
creating intermediate directories.

Modelling choices (shallow embedding):
* A filesystem path is a `List String` of components.  Path strings coming
  from archive entry names are parsed into `PathComp` lists following Rust's
  `std::path::Path::components()` semantics on Unix.
* The filesystem is a pair of association lists: regular files
  (path to byte content) and directories, both keyed by canonical paths.
  The program hands the literal joined path `dir.join(enclosed_name)` —
  `..` components intact — to `Path::exists`, `std::fs::create_dir_all`
  and `std::fs::File::create`; the syscall models (`statLit`, `mkdirLit`,
  `createDirAllAux`, `createFileLit`) walk that literal path the way the
  kernel resolves it: every normal component descended through must be an
  existing directory (ENOENT when missing, ENOTDIR when it is a regular
  file), a `..` steps up lexically from the directory just walked, and the
  final component is handled per syscall (`mkdir` EEXIST on an existing
  object, `File::create` EISDIR on a directory and truncation of an
  existing file).  `create_dir_all` follows std's recursion on the lexical
  parent, keeping ancestors created before a failing retry.  The 1024-byte
  streaming read/write loop of the source nets to writing the entry's full
  byte content, which is how `createFileLit` models it.
* Bytes are `Nat`, `u64` values are `Nat` with explicit `% 2 ^ 64`
  wrapping where the source casts (`uncompressed_size as i64`).
* Library results attached to an entry (parsed extra fields, the native
  last-modified field and chrono's conversion of it) are entry attributes:
  `extra : List ExtraField` is what `extra_data_fields()` yields,
  `lastModified : Option ZipDT` is `last_modified()`, and `ZipDT.parsedNaive`
  is the result of the chrono `try_into` conversion (`none` = unparseable).
  Naive civil datetimes are encoded as seconds (`Int`);
  `NaiveDateTime::default()` is 0 (the 1970 epoch) and the default zip
  `DateTime` (1980-01-01 00:00:00) parses to 315532800.
-/

namespace NuUnzip

/-! ## Path strings and components (Rust `std::path` on Unix) -/

inductive PathComp where
  | rootDir
  | curDir
  | parentDir
  | normal (s : String)
deriving DecidableEq

/-- Split a character list on `/` separators, keeping empty segments. -/
def segsAux (cur : List Char) : List Char → List (List Char)
  | [] => [cur.reverse]
  | c :: rest => if c = '/' then cur.reverse :: segsAux [] rest else segsAux (c :: cur) rest

/-- The `/`-separated segments of a path string. -/
def segs (s : String) : List (List Char) := segsAux [] s.data

/-- Classify a non-leading segment: empty and `.` segments are dropped by
`Path::components()`, `..` is a parent component, the rest are normal. -/
def tailComp (seg : List Char) : Option PathComp :=
  if seg = [] ∨ seg = ['.'] then none
  else if seg = ['.', '.'] then some .parentDir
  else some (.normal (String.mk seg))

/-- Classify the leading segment: an empty one means the path began with `/`
(root), and a leading `.` is kept as a current-directory component. -/
def headComp (seg : List Char) : PathComp :=
  if seg = [] then .rootDir
  else if seg = ['.'] then .curDir
  else if seg = ['.', '.'] then .parentDir
  else .normal (String.mk seg)

/-- The components of a path string, as `Path::components()` yields them on
Unix: repeated separators and interior `.` segments are dropped, a leading
`/` is the root component, a leading `.` is kept. -/
def toComponents (s : String) : List PathComp :=
  match segs s with
  | [] => []
  | first :: rest => if s.data = [] then [] else headComp first :: rest.filterMap tailComp

/-- The depth check of the zip crate's `enclosed_name`: walk the components
keeping a depth counter; absolute paths are rejected outright and a `..`
component at depth 0 (`depth.checked_sub(1)` returning `None`) rejects the
name.  `..` components that stay inside the tree are accepted. -/
def checkDepth : List PathComp → Nat → Bool
  | [], _ => true
  | .rootDir :: _, _ => false
  | .curDir :: rest, d => checkDepth rest d
  | .parentDir :: rest, d =>
    match d with
    | 0 => false
    | d' + 1 => checkDepth rest d'
  | .normal _ :: rest, d => checkDepth rest (d + 1)

/-- `ZipFile::enclosed_name` of the zip crate: `None` if the name holds a NUL
byte, is absolute, or its `..` components would climb above the extraction
root; otherwise the component list of the name. -/
def enclosedName (name : String) : Option (List PathComp) :=
  if name.data.contains (Char.ofNat 0) then none
  else if checkDepth (toComponents name) 0 then some (toComponents name) else none

/-- Resolve a component list against a base path, the way the OS resolves the
joined path `dir.join(name)` lexically during directory/file creation. -/
def resolveComps (base : List String) : List PathComp → List String
  | [] => base
  | .rootDir :: rest => resolveComps [] rest
  | .curDir :: rest => resolveComps base rest
  | .parentDir :: rest => resolveComps base.dropLast rest
  | .normal s :: rest => resolveComps (base ++ [s]) rest

/-! ## Filesystem model -/

structure FS where
  files : List (List String × List Nat)
  dirs : List (List String)
deriving DecidableEq

def fileLookup (fs : FS) (p : List String) : Option (List Nat) :=
  (fs.files.find? (fun q => q.1 == p)).map (fun q => q.2)

def pathExists (fs : FS) (p : List String) : Bool :=
  (fileLookup fs p).isSome || fs.dirs.contains p

/-! ### Filesystem syscalls on literal paths

The program hands `dir.join(enclosed_name)` — the literal, unnormalized
path, `..` components intact — to `Path::exists`, `create_dir_all` and
`File::create`.  These walk the path the way the kernel resolves it: every
`normal` component descended through must be an existing directory (ENOENT
when missing, ENOTDIR when it is a regular file), a `..` steps up from the
directory just walked, and the final component is handled per syscall.  The
filesystem itself stores canonical paths. -/

/-- `stat`, hence `Path::exists`, on a literal path walked from `cur`: the
walk must descend through existing directories and the object the final
component names must exist (as a file or a directory). -/
def statLit (fs : FS) : List String → List PathComp → Bool
  | _, [] => true
  | cur, [.normal s] => pathExists fs (cur ++ [s])
  | _, [.parentDir] => true
  | _, [.curDir] => true
  | _, [.rootDir] => true
  | cur, .normal s :: rest =>
      fs.dirs.contains (cur ++ [s]) && statLit fs (cur ++ [s]) rest
  | cur, .parentDir :: rest => statLit fs cur.dropLast rest
  | cur, .curDir :: rest => statLit fs cur rest
  | _, .rootDir :: rest => statLit fs [] rest

/-- `Path::is_dir` on a literal path: the walk of `statLit` with the final
object required to be a directory. -/
def isDirLit (fs : FS) : List String → List PathComp → Bool
  | _, [] => true
  | cur, [.normal s] => fs.dirs.contains (cur ++ [s])
  | _, [.parentDir] => true
  | _, [.curDir] => true
  | _, [.rootDir] => true
  | cur, .normal s :: rest =>
      fs.dirs.contains (cur ++ [s]) && isDirLit fs (cur ++ [s]) rest
  | cur, .parentDir :: rest => isDirLit fs cur.dropLast rest
  | cur, .curDir :: rest => isDirLit fs cur rest
  | _, .rootDir :: rest => isDirLit fs [] rest

/-- Result of one `mkdir` call on a literal path. -/
inductive MkdirRes where
  | ok (fs : FS)
  | exist
  | missing
  | notDir
deriving DecidableEq

/-- `mkdir` on a literal path: walk the leading components as directories
(`missing` on ENOENT, `notDir` on ENOTDIR), then create the directory the
final component names; `exist` when something already sits there, or when
the path resolves back into an already-walked directory. -/
def mkdirLit (fs : FS) : List String → List PathComp → MkdirRes
  | _, [] => .exist
  | cur, [.normal s] =>
      if pathExists fs (cur ++ [s]) then .exist
      else .ok { fs with dirs := (cur ++ [s]) :: fs.dirs }
  | _, [.parentDir] => .exist
  | _, [.curDir] => .exist
  | _, [.rootDir] => .exist
  | cur, .normal s :: rest =>
      if fs.dirs.contains (cur ++ [s]) then mkdirLit fs (cur ++ [s]) rest
      else if (fileLookup fs (cur ++ [s])).isSome then .notDir
      else .missing
  | cur, .parentDir :: rest => mkdirLit fs cur.dropLast rest
  | cur, .curDir :: rest => mkdirLit fs cur rest
  | _, .rootDir :: rest => mkdirLit fs [] rest

/-- `std::fs::create_dir_all` on a literal path, following std's recursion:
try `mkdir`; on NotFound recurse on the lexical parent (`Path::parent`, the
components without the last one) and retry; any other failure falls back to
an `is_dir` probe.  Ancestors created before a failing retry are kept.  The
fuel argument only bounds the parent recursion (one unit per component). -/
def createDirAllAux (fs : FS) : Nat → List PathComp → FS × Bool
  | _, [] => (fs, true)
  | 0, _ => (fs, false)
  | fuel + 1, comps =>
    match mkdirLit fs [] comps with
    | .ok fs' => (fs', true)
    | .missing =>
      match createDirAllAux fs fuel comps.dropLast with
      | (fs1, false) => (fs1, false)
      | (fs1, true) =>
        match mkdirLit fs1 [] comps with
        | .ok fs2 => (fs2, true)
        | _ => (fs1, isDirLit fs1 [] comps)
    | _ => (fs, isDirLit fs [] comps)

def createDirAllLit (fs : FS) (comps : List PathComp) : FS × Bool :=
  createDirAllAux fs comps.length comps

/-- `std::fs::File::create` on a literal path: walk the leading components
as directories (error when one is missing or a regular file), then
create or truncate the file the final component names; a final component
resolving to a directory is EISDIR.  `none` is the error case. -/
def createFileLit (fs : FS) (c : List Nat) : List String → List PathComp → Option FS
  | _, [] => none
  | cur, [.normal s] =>
      if fs.dirs.contains (cur ++ [s]) then none
      else some { fs with
        files := (cur ++ [s], c) :: fs.files.filter (fun r => !(r.1 == cur ++ [s])) }
  | _, [.parentDir] => none
  | _, [.curDir] => none
  | _, [.rootDir] => none
  | cur, .normal s :: rest =>
      if fs.dirs.contains (cur ++ [s]) then createFileLit fs c (cur ++ [s]) rest
      else none
  | cur, .parentDir :: rest => createFileLit fs c cur.dropLast rest
  | cur, .curDir :: rest => createFileLit fs c cur rest
  | _, .rootDir :: rest => createFileLit fs c [] rest

/-! ## Archive entries -/

/-- A parsed extra-data field as `extra_data_fields()` yields them: either an
extended-timestamp field (whose `mod_time()` is `some` when the field carries
a modification time) or any other field kind. -/
inductive ExtraField where
  | extendedTimestamp (modTime : Option Nat)
  | otherField
deriving DecidableEq

/-- The native zip last-modified value together with the result of the chrono
`try_into` conversion to a naive civil datetime (`none` when the raw dos
fields do not form a valid datetime). -/
structure ZipDT where
  dosDate : Nat
  dosTime : Nat
  parsedNaive : Option Int
deriving DecidableEq

/-- `zip::DateTime::default()`: 1980-01-01 00:00:00, which converts
successfully (315532800 seconds after the epoch). -/
def zipDTDefault : ZipDT := { dosDate := 0x21, dosTime := 0, parsedNaive := some 315532800 }

/-- One decodable archive entry.  `size` is the declared uncompressed size
(`file.size()`, a `u64`); `content` is the byte stream the decompressor
yields.  An archive is a `List (Option EntryData)`: `none` stands for an
index whose `by_index` call fails to decode. -/
structure EntryData where
  raw_name : String
  content : List Nat
  size : Nat
  extra : List ExtraField
  lastModified : Option ZipDT
deriving DecidableEq

/-- `file.is_dir()` of the zip crate: the name ends with `/`. -/
def isDirEntry (e : EntryData) : Bool := e.raw_name.data.getLast? == some '/'

/-- The resolved output path of an entry under a target directory: the
lexical resolution of `dir.join(path)` for the sanitized `enclosed_name`,
`none` for unsafe names. -/
def outPathOf (dir : List String) (e : EntryData) : Option (List String) :=
  (enclosedName e.raw_name).map (resolveComps dir)

/-- The literal joined path the program hands to the filesystem calls:
`dir.join(path)` with the sanitized name's components kept as-is. -/
def litPath (dir : List String) (comps : List PathComp) : List PathComp :=
  dir.map PathComp.normal ++ comps

/-- The literal joined path of an entry (`none` for unsafe names). -/
def litOutOf (dir : List String) (e : EntryData) : Option (List PathComp) :=
  (enclosedName e.raw_name).map (litPath dir)

/-- Extract the plain names when every component of a sanitized name is a
`normal` one (no `..`, no leading `.`). -/
def asNormals : List PathComp → Option (List String)
  | [] => some []
  | .normal s :: rest => (asNormals rest).map (fun ns => s :: ns)
  | _ => none

/-- The resolved output path of an entry whose sanitized name consists of
plain components only (for such names the literal path the program touches
names exactly the resolved path). -/
def plainOutOf (dir : List String) (e : EntryData) : Option (List String) :=
  match enclosedName e.raw_name with
  | some comps => (asNormals comps).map (fun ns => dir ++ ns)
  | none => none

/-- A decodable file entry whose sanitized name is a nonempty run of plain
components. -/
def plainFileEntry (e : EntryData) : Bool :=
  !(isDirEntry e) &&
    (match enclosedName e.raw_name with
     | some comps => !comps.isEmpty && (asNormals comps).isSome
     | none => false)

/-- Archive slots that never bypass the conflict check: undecodable slots,
directory entries, unsafe names, and file entries with plain names. -/
def tameEntry : Option EntryData → Bool
  | none => true
  | some e =>
    isDirEntry e ||
      (match enclosedName e.raw_name with
       | some comps => (asNormals comps).isSome
       | none => true)

/-- Output paths of two entries do not conflict: neither is a prefix of the
other (in particular they differ); vacuous when either is unsafe. -/
def sepOutB : Option (List String) → Option (List String) → Bool
  | some p, some q => !(p.isPrefixOf q) && !(q.isPrefixOf p)
  | _, _ => true

/-- A well-formed filesystem: every proper nonempty prefix of a regular
file's path is a directory. -/
def wfFS (fs : FS) : Prop :=
  ∀ r ∈ fs.files, ∀ q ∈ r.1.inits, q = [] ∨ q = r.1 ∨ q ∈ fs.dirs

instance (fs : FS) : Decidable (wfFS fs) :=
  inferInstanceAs (Decidable (∀ r ∈ fs.files, ∀ q ∈ r.1.inits,
    q = [] ∨ q = r.1 ∨ q ∈ fs.dirs))

/-! ## Listing (`list_files`) -/

/-- A listed modification timestamp.  `extUnix s` is
`chrono::DateTime::from_timestamp(s, 0)` converted into the local timezone;
`nativeLocal n` is the naive civil datetime `n` interpreted in the local
timezone (`and_local_timezone(Local).single().unwrap_or_default()`). -/
inductive ModTime where
  | extUnix (secs : Nat)
  | nativeLocal (naive : Int)
deriving DecidableEq

/-- The extra-field scan of `list_files`: on the first extended-timestamp
field, take its `mod_time()` (which may be `none`) and stop. -/
def loopExtTimestamp : List ExtraField → Option Nat
  | [] => none
  | .extendedTimestamp mt :: _ => mt
  | .otherField :: rest => loopExtTimestamp rest

/-- The timestamp resolution of `list_files`: the first extended-timestamp
field's `mod_time()` when it yields one, interpreted as Unix epoch seconds;
otherwise the native `last_modified()` (default zip datetime when absent)
converted to a naive datetime (`NaiveDateTime::default()`, the 1970 epoch,
when unparseable) and localized. -/
def resolveModified (fields : List ExtraField) (lastMod : Option ZipDT) : ModTime :=
  match loopExtTimestamp fields with
  | some ts => .extUnix ts
  | none => .nativeLocal ((lastMod.getD zipDTDefault).parsedNaive.getD 0)

/-- The `uncompressed_size as i64` cast feeding `Value::filesize`. -/
def u64ToI64 (n : Nat) : Int :=
  if n % 2 ^ 64 < 2 ^ 63 then ((n % 2 ^ 64 : Nat) : Int)
  else ((n % 2 ^ 64 : Nat) : Int) - 2 ^ 64

structure ListingRow where
  name : String
  size : Int
  modified : ModTime
deriving DecidableEq

def rowOf (e : EntryData) : ListingRow :=
  { name := e.raw_name
    size := u64ToI64 e.size
    modified := resolveModified e.extra e.lastModified }

/-- `list_files`: one row per decodable entry, in index order; an index whose
`by_index` fails is skipped. -/
def list_files : List (Option EntryData) → List ListingRow
  | [] => []
  | none :: rest => list_files rest
  | some e :: rest => rowOf e :: list_files rest

/-! ## Extraction (`unzip_file`) -/

/-- Extraction errors carry the path the source interpolates into the
`LabeledError` — the literal joined path (`out_path`), or its lexical
parent for a failing parent creation. -/
inductive ExtractError where
  | alreadyExists (p : List PathComp)
  | failCreate (p : List PathComp)
deriving DecidableEq

def compToString : PathComp → String
  | .rootDir => ""
  | .curDir => "."
  | .parentDir => ".."
  | .normal s => s

def pathToString : List PathComp → String
  | [] => ""
  | [c] => compToString c
  | c :: rest => compToString c ++ "/" ++ pathToString rest

/-- The `LabeledError` message of each extraction error
(`format!("File {} already exists", ...)`, `format!("Fail to create {}", ...)`). -/
def errMessage : ExtractError → String
  | .alreadyExists p => "File " ++ pathToString p ++ " already exists"
  | .failCreate p => "Fail to create " ++ pathToString p

/-- The `LabeledError` label.  For `failCreate` the source attaches the OS
error text, opaque here. -/
def errLabel : ExtractError → String
  | .alreadyExists _ => "Use --force/-f to overwrite"
  | .failCreate _ => ""

/-- The `eprintln!("Extracting {}", ...)` diagnostic: the literal output
path is echoed when the debug flag is on, nothing otherwise. -/
def stepLog (debug : Bool) (out : List PathComp) : List (List PathComp) :=
  if debug then [out] else []

/-- The write phase of one extraction iteration, after the conflict check,
on the literal output path: create the directory for a directory entry;
create the missing parents (`create_dir_all(out_path.parent())`, the
lexical parent) and then create/stream the file for a file entry. -/
def writeEntry (fs : FS) (e : EntryData) (out : List PathComp) : FS × Option ExtractError :=
  if isDirEntry e then
    match createDirAllLit fs out with
    | (fs1, false) => (fs1, some (.failCreate out))
    | (fs1, true) => (fs1, none)
  else
    match createDirAllLit fs out.dropLast with
    | (fs1, false) => (fs1, some (.failCreate out.dropLast))
    | (fs1, true) =>
      match createFileLit fs1 e.content [] out with
      | none => (fs1, some (.failCreate out))
      | some fs2 => (fs2, none)

/-- One iteration of the extraction loop on a decodable entry: sanitize the
name (skip when `enclosed_name` is `None`), emit the debug line, apply the
exists/force conflict check (`out_path.exists()` on the literal joined
path), then run the write phase.  Returns the filesystem after the
iteration, the debug lines emitted, and the error if it aborts. -/
def unzipStep (dir : List String) (force debug : Bool) (fs : FS) (e : EntryData) :
    FS × List (List PathComp) × Option ExtractError :=
  match enclosedName e.raw_name with
  | none => (fs, [], none)
  | some comps =>
    if statLit fs [] (litPath dir comps) && !force then
      (fs, stepLog debug (litPath dir comps),
        some (.alreadyExists (litPath dir comps)))
    else
      ((writeEntry fs e (litPath dir comps)).1,
        stepLog debug (litPath dir comps),
        (writeEntry fs e (litPath dir comps)).2)

structure UnzipOutcome where
  fs : FS
  logs : List (List PathComp)
  err : Option ExtractError
deriving DecidableEq

/-- `unzip_file`: process the entries in index order, skipping indices whose
`by_index` fails, stopping at the first error.  On error the filesystem
mutations already performed are kept (no rollback). -/
def unzip_file (dir : List String) (force debug : Bool) :
    List (Option EntryData) → FS → UnzipOutcome
  | [], fs => ⟨fs, [], none⟩
  | none :: rest, fs => unzip_file dir force debug rest fs
  | some e :: rest, fs =>
    match unzipStep dir force debug fs e with
    | (fs1, lg, some err) => ⟨fs1, lg, some err⟩
    | (fs1, lg, none) =>
      let r := unzip_file dir force debug rest fs1
      ⟨r.fs, lg ++ r.logs, r.err⟩

/-! ## Path lemmas -/

/-- The depth invariant behind `enclosed_name`: a component list passing the
depth check at depth `rel.length` never resolves above `base`. -/
lemma checkDepth_resolve :
    ∀ (comps : List PathComp) (base rel : List String),
      checkDepth comps rel.length = true →
      base <+: resolveComps (base ++ rel) comps := by
  intro comps
  induction comps with
  | nil =>
    intro base rel _
    exact List.prefix_append base rel
  | cons c rest ih =>
    intro base rel h
    cases c with
    | rootDir => simp [checkDepth] at h
    | curDir =>
      simp only [checkDepth] at h
      simpa [resolveComps] using ih base rel h
    | parentDir =>
      cases rel with
      | nil => simp [checkDepth] at h
      | cons r rs =>
        simp only [checkDepth] at h
        have hd : (base ++ r :: rs).dropLast = base ++ (r :: rs).dropLast :=
          List.dropLast_append_of_ne_nil base (by simp)
        rw [resolveComps, hd]
        exact ih base (r :: rs).dropLast (by simpa using h)
    | normal s =>
      simp only [checkDepth] at h
      have := ih base (rel ++ [s]) (by simpa using h)
      rw [resolveComps]
      simpa [List.append_assoc] using this

/-- A sanitized name always resolves inside the base directory. -/
lemma enclosedName_extends {name : String} {comps : List PathComp} (dir : List String)
    (h : enclosedName name = some comps) : dir <+: resolveComps dir comps := by
  unfold enclosedName at h
  by_cases h1 : name.data.contains (Char.ofNat 0) = true
  · rw [if_pos h1] at h
    exact Option.noConfusion h
  · rw [if_neg h1] at h
    by_cases h2 : checkDepth (toComponents name) 0 = true
    · rw [if_pos h2] at h
      injection h with h'
      subst h'
      simpa using checkDepth_resolve (toComponents name) dir [] (by simpa using h2)
    · rw [if_neg h2] at h
      exact Option.noConfusion h

/-- The depth check is closed under taking prefixes of the component list. -/
lemma checkDepth_append :
    ∀ (xs ys : List PathComp) (d : Nat), checkDepth (xs ++ ys) d = true →
      checkDepth xs d = true := by
  intro xs
  induction xs with
  | nil =>
    intro ys d _
    rfl
  | cons c rest ih =>
    intro ys d h
    cases c with
    | rootDir => simp [checkDepth] at h
    | curDir =>
      simp only [List.cons_append, checkDepth] at h ⊢
      exact ih ys d h
    | parentDir =>
      cases d with
      | zero => simp [checkDepth] at h
      | succ d' =>
        simp only [List.cons_append, checkDepth] at h ⊢
        exact ih ys d' h
    | normal s =>
      simp only [List.cons_append, checkDepth] at h ⊢
      exact ih ys (d + 1) h

/-- Resolving a run of plain components appends the names. -/
lemma resolve_normals : ∀ (ns : List String) (cur : List String),
    resolveComps cur (ns.map PathComp.normal) = cur ++ ns := by
  intro ns
  induction ns with
  | nil =>
    intro cur
    simp [resolveComps]
  | cons s rest ih =>
    intro cur
    rw [List.map_cons, resolveComps, ih]
    simp

/-- Resolving a literal joined path factors through the base. -/
lemma resolve_lit : ∀ (q : List String) (cur : List String) (cs : List PathComp),
    resolveComps cur (q.map PathComp.normal ++ cs) = resolveComps (cur ++ q) cs := by
  intro q
  induction q with
  | nil =>
    intro cur cs
    simp
  | cons s rest ih =>
    intro cur cs
    rw [List.map_cons, List.cons_append, resolveComps, ih]
    simp

lemma asNormals_inv : ∀ {comps : List PathComp} {ns : List String},
    asNormals comps = some ns → comps = ns.map PathComp.normal := by
  intro comps
  induction comps with
  | nil =>
    intro ns h
    injection h with h'
    rw [← h']
    rfl
  | cons c rest ih =>
    intro ns h
    cases c with
    | normal s =>
      rw [asNormals] at h
      rcases ha : asNormals rest with - | ns'
      · rw [ha] at h
        exact Option.noConfusion h
      · rw [ha] at h
        injection h with h'
        rw [← h', List.map_cons]
        rw [ih ha]
    | rootDir => exact Option.noConfusion h
    | curDir => exact Option.noConfusion h
    | parentDir => exact Option.noConfusion h

lemma litPath_normals (dir ns : List String) :
    litPath dir (ns.map PathComp.normal) = (dir ++ ns).map PathComp.normal := by
  unfold litPath
  rw [List.map_append]

/-- Decompose a prefix of an appended list. -/
lemma prefix_append_cases {L A B : List PathComp} (h : L <+: A ++ B) :
    L <+: A ∨ ∃ B', B' <+: B ∧ L = A ++ B' := by
  rcases List.prefix_or_prefix_of_prefix h (List.prefix_append A B) with h1 | h1
  · exact .inl h1
  · obtain ⟨t, rfl⟩ := h1
    right
    refine ⟨t, ?_, rfl⟩
    obtain ⟨u, hu⟩ := h
    rw [List.append_assoc] at hu
    exact ⟨u, List.append_cancel_left hu⟩

/-- A proper prefix is a prefix of the list without its last element. -/
lemma prefix_dropLast_of_proper {q p : List String} (h : q <+: p) (hne : q ≠ p) :
    q <+: p.dropLast := by
  obtain ⟨t, rfl⟩ := h
  have ht : t ≠ [] := by
    rintro rfl
    exact hne (by simp)
  rw [List.dropLast_append_of_ne_nil q ht]
  exact List.prefix_append q t.dropLast

/-! ## File lookup lemmas -/

lemma fileLookup_mem {fs : FS} {p : List String} {c : List Nat}
    (h : fileLookup fs p = some c) : (p, c) ∈ fs.files := by
  unfold fileLookup at h
  rcases ho : fs.files.find? (fun q => q.1 == p) with - | r
  · rw [ho] at h
    exact Option.noConfusion h
  · rw [ho] at h
    injection h with h'
    have hr := List.find?_some ho
    have hmem := List.mem_of_find?_eq_some ho
    have : r.1 = p := by simpa using hr
    rw [← this, ← h']
    simpa using hmem

lemma fileLookup_eq_none {fs : FS} {p : List String} :
    fileLookup fs p = none ↔ ∀ r ∈ fs.files, r.1 ≠ p := by
  unfold fileLookup
  rw [Option.map_eq_none', List.find?_eq_none]
  constructor
  · intro h r hr
    simpa using h r hr
  · intro h r hr
    simpa using h r hr

lemma fileLookup_isSome_of_mem {fs : FS} {r : List String × List Nat}
    (h : r ∈ fs.files) : (fileLookup fs r.1).isSome = true := by
  unfold fileLookup
  have hex : ∃ x ∈ fs.files, ((fun q => q.1 == r.1) x) = true := ⟨r, h, by simp⟩
  rw [← List.find?_isSome] at hex
  rcases hf : fs.files.find? (fun q => q.1 == r.1) with - | s
  · rw [hf] at hex
    simp at hex
  · simp
    exact ⟨r.2, by simpa using h⟩

lemma find?_key_filter (l : List (List String × List Nat)) (p q : List String) (hne : q ≠ p) :
    (l.filter (fun r => !(r.1 == p))).find? (fun r => r.1 == q) =
      l.find? (fun r => r.1 == q) := by
  induction l with
  | nil => rfl
  | cons a l ih =>
    have hpq : (p == q) = false := by
      simp only [beq_eq_false_iff_ne, ne_eq]
      exact fun h => hne h.symm
    by_cases hap : a.1 = p
    · have haq : (a.1 == q) = false := by
        simp only [beq_eq_false_iff_ne, ne_eq]
        rw [hap]
        exact fun h => hne h.symm
      simp [List.filter_cons, List.find?_cons, hap, haq, hpq, ih]
    · by_cases haq : a.1 = q
      · simp [List.filter_cons, List.find?_cons, hap, haq, hne, ih]
      · simp [List.filter_cons, List.find?_cons, hap, haq, hne, ih]

/-- Lookup after replacing the file at `p` with content `c`. -/
lemma fileLookup_insert {fs fs' : FS} {p : List String} {c : List Nat}
    (h : fs'.files = (p, c) :: fs.files.filter (fun r => !(r.1 == p)))
    (q : List String) :
    fileLookup fs' q = if q = p then some c else fileLookup fs q := by
  by_cases hqp : q = p
  · subst hqp
    simp [fileLookup, h, List.find?_cons]
  · rw [if_neg hqp]
    unfold fileLookup
    rw [h]
    have hpq : (p == q) = false := by
      simp only [beq_eq_false_iff_ne, ne_eq]
      exact fun h' => hqp h'.symm
    rw [List.find?_cons]
    simp only [hpq]
    rw [find?_key_filter fs.files p q hqp]

lemma contains_iff_mem {l : List (List String)} {p : List String} :
    l.contains p = true ↔ p ∈ l := by
  simp [List.contains_iff_exists_mem_beq]

lemma mem_inits_dropLast_lt {p d : List String} (hp : p ≠ []) (h : d ∈ p.dropLast.inits) :
    d <+: p ∧ d ≠ p := by
  have hd : d <+: p.dropLast := (List.mem_inits _ _).mp h
  refine ⟨hd.trans ( List.dropLast_prefix _), ?_⟩
  intro heq
  subst heq
  have hlen := hd.length_le
  rw [List.length_dropLast] at hlen
  have hpos := List.length_pos_of_ne_nil hp
  omega

lemma not_prefix_dropLast_self {p : List String} (hp : p ≠ []) : ¬ p <+: p.dropLast := by
  intro h
  have hlen := h.length_le
  rw [List.length_dropLast] at hlen
  have hpos := List.length_pos_of_ne_nil hp
  omega

/-! ## Syscall lemmas: general inversions -/

lemma dropLast_map_normal : ∀ (l : List String),
    (l.map PathComp.normal).dropLast = l.dropLast.map PathComp.normal := by
  intro l
  induction l with
  | nil => rfl
  | cons s rest ih =>
    cases rest with
    | nil => rfl
    | cons r rs =>
      show PathComp.normal s :: (List.map PathComp.normal (r :: rs)).dropLast =
        PathComp.normal s :: List.map PathComp.normal ((r :: rs).dropLast)
      rw [ih]

/-- A successful `mkdir` creates exactly the directory the path resolves
to, leaving the files alone. -/
lemma mkdirLit_ok : ∀ (comps : List PathComp) (cur : List String) {fs fs' : FS},
    mkdirLit fs cur comps = .ok fs' →
    fs'.files = fs.files ∧ fs'.dirs = resolveComps cur comps :: fs.dirs := by
  intro comps
  induction comps with
  | nil =>
    intro cur fs fs' h
    exact MkdirRes.noConfusion h
  | cons c rest ih =>
    intro cur fs fs' h
    cases c with
    | normal s =>
      cases rest with
      | nil =>
        have h2 : (if pathExists fs (cur ++ [s]) = true then MkdirRes.exist
            else MkdirRes.ok { fs with dirs := (cur ++ [s]) :: fs.dirs }) =
            MkdirRes.ok fs' := h
        by_cases hex : pathExists fs (cur ++ [s]) = true
        · rw [if_pos hex] at h2
          exact MkdirRes.noConfusion h2
        · rw [if_neg hex] at h2
          injection h2 with h'
          subst h'
          exact ⟨rfl, rfl⟩
      | cons r rs =>
        have h2 : (if fs.dirs.contains (cur ++ [s]) = true
            then mkdirLit fs (cur ++ [s]) (r :: rs)
            else if (fileLookup fs (cur ++ [s])).isSome = true then MkdirRes.notDir
            else MkdirRes.missing) = MkdirRes.ok fs' := h
        by_cases hc : fs.dirs.contains (cur ++ [s]) = true
        · rw [if_pos hc] at h2
          exact ih (cur ++ [s]) h2
        · rw [if_neg hc] at h2
          by_cases hf : (fileLookup fs (cur ++ [s])).isSome = true
          · rw [if_pos hf] at h2
            exact MkdirRes.noConfusion h2
          · rw [if_neg hf] at h2
            exact MkdirRes.noConfusion h2
    | parentDir =>
      cases rest with
      | nil => exact MkdirRes.noConfusion h
      | cons r rs => exact ih cur.dropLast h
    | curDir =>
      cases rest with
      | nil => exact MkdirRes.noConfusion h
      | cons r rs => exact ih cur h
    | rootDir =>
      cases rest with
      | nil => exact MkdirRes.noConfusion h
      | cons r rs => exact ih [] h

/-- Computation rules for `createDirAllAux` at positive fuel. -/
lemma createDirAllAux_ok {fs fs' : FS} {comps : List PathComp} {fuel : Nat}
    (h : mkdirLit fs [] comps = .ok fs') :
    createDirAllAux fs (fuel + 1) comps = (fs', true) := by
  cases comps with
  | nil => exact MkdirRes.noConfusion h
  | cons c rest =>
    rw [createDirAllAux, h]
    intro h'
    exact List.noConfusion h'

lemma createDirAllAux_exist {fs : FS} {comps : List PathComp} {fuel : Nat}
    (h : mkdirLit fs [] comps = .exist) :
    createDirAllAux fs (fuel + 1) comps = (fs, isDirLit fs [] comps) := by
  cases comps with
  | nil =>
    rfl
  | cons c rest =>
    rw [createDirAllAux, h]
    intro h'
    exact List.noConfusion h'

lemma createDirAllAux_notDir {fs : FS} {comps : List PathComp} {fuel : Nat}
    (h : mkdirLit fs [] comps = .notDir) :
    createDirAllAux fs (fuel + 1) comps = (fs, isDirLit fs [] comps) := by
  cases comps with
  | nil => exact MkdirRes.noConfusion h
  | cons c rest =>
    rw [createDirAllAux, h]
    intro h'
    exact List.noConfusion h'

lemma createDirAllAux_missing {fs : FS} {comps : List PathComp} {fuel : Nat}
    (h : mkdirLit fs [] comps = .missing) :
    createDirAllAux fs (fuel + 1) comps =
      (match createDirAllAux fs fuel comps.dropLast with
       | (fs1, false) => (fs1, false)
       | (fs1, true) =>
         match mkdirLit fs1 [] comps with
         | .ok fs2 => (fs2, true)
         | _ => (fs1, isDirLit fs1 [] comps)) := by
  cases comps with
  | nil => exact MkdirRes.noConfusion h
  | cons c rest =>
    rw [createDirAllAux, h]
    intro h'
    exact List.noConfusion h'

/-- `create_dir_all` never touches files, and every directory it creates is
the resolution of a prefix of its literal path argument. -/
lemma createDirAllAux_writes : ∀ (fuel : Nat) (comps : List PathComp) (fs : FS),
    (createDirAllAux fs fuel comps).1.files = fs.files ∧
    (∀ d ∈ (createDirAllAux fs fuel comps).1.dirs,
      d ∈ fs.dirs ∨ ∃ L, L <+: comps ∧ d = resolveComps [] L) := by
  intro fuel
  induction fuel with
  | zero =>
    intro comps fs
    cases comps with
    | nil => exact ⟨rfl, fun d hd => .inl hd⟩
    | cons c rest => exact ⟨rfl, fun d hd => .inl hd⟩
  | succ fuel ih =>
    intro comps fs
    rcases hmk : mkdirLit fs [] comps with fs' | - | - | -
    · rw [createDirAllAux_ok hmk]
      obtain ⟨hf, hd⟩ := mkdirLit_ok comps [] hmk
      refine ⟨hf, fun d hdm => ?_⟩
      rw [hd] at hdm
      rcases List.mem_cons.mp hdm with h | h
      · exact .inr ⟨comps, List.prefix_refl _, h⟩
      · exact .inl h
    · rw [createDirAllAux_exist hmk]
      exact ⟨rfl, fun d hd => .inl hd⟩
    · rw [createDirAllAux_missing hmk]
      rcases hrec : createDirAllAux fs fuel comps.dropLast with ⟨fs1, b⟩
      have hih := ih comps.dropLast fs
      rw [hrec] at hih
      obtain ⟨hf1, hd1⟩ := hih
      have hd1' : ∀ d ∈ fs1.dirs,
          d ∈ fs.dirs ∨ ∃ L, L <+: comps ∧ d = resolveComps [] L := by
        intro d hdm
        rcases hd1 d hdm with h | ⟨L, hL, hres⟩
        · exact .inl h
        · exact .inr ⟨L, hL.trans ( List.dropLast_prefix _), hres⟩
      cases b with
      | false => exact ⟨hf1, hd1'⟩
      | true =>
        dsimp only
        rcases hmk2 : mkdirLit fs1 [] comps with fs2 | - | - | -
        · obtain ⟨hf2, hd2⟩ := mkdirLit_ok comps [] hmk2
          refine ⟨hf2.trans hf1, fun d hdm => ?_⟩
          have hdm2 : d ∈ fs2.dirs := hdm
          rw [hd2] at hdm2
          rcases List.mem_cons.mp hdm2 with h | h
          · exact .inr ⟨comps, List.prefix_refl _, h⟩
          · exact hd1' d h
        · exact ⟨hf1, hd1'⟩
        · exact ⟨hf1, hd1'⟩
        · exact ⟨hf1, hd1'⟩
    · rw [createDirAllAux_notDir hmk]
      exact ⟨rfl, fun d hd => .inl hd⟩

/-- `create_dir_all` never removes a directory. -/
lemma createDirAllAux_mono : ∀ (fuel : Nat) (comps : List PathComp) (fs : FS),
    ∀ d ∈ fs.dirs, d ∈ (createDirAllAux fs fuel comps).1.dirs := by
  intro fuel
  induction fuel with
  | zero =>
    intro comps fs d hd
    cases comps with
    | nil => exact hd
    | cons c rest => exact hd
  | succ fuel ih =>
    intro comps fs d hd
    rcases hmk : mkdirLit fs [] comps with fs' | - | - | -
    · rw [createDirAllAux_ok hmk]
      obtain ⟨-, hdirs⟩ := mkdirLit_ok comps [] hmk
      rw [hdirs]
      exact List.mem_cons_of_mem _ hd
    · rw [createDirAllAux_exist hmk]
      exact hd
    · rw [createDirAllAux_missing hmk]
      rcases hrec : createDirAllAux fs fuel comps.dropLast with ⟨fs1, b⟩
      have h1 : d ∈ fs1.dirs := by
        have := ih comps.dropLast fs d hd
        rwa [hrec] at this
      cases b with
      | false => exact h1
      | true =>
        dsimp only
        rcases hmk2 : mkdirLit fs1 [] comps with fs2 | - | - | -
        · obtain ⟨-, hdirs⟩ := mkdirLit_ok comps [] hmk2
          show d ∈ fs2.dirs
          rw [hdirs]
          exact List.mem_cons_of_mem _ h1
        · exact h1
        · exact h1
        · exact h1
    · rw [createDirAllAux_notDir hmk]
      exact hd

/-- A successful `File::create` writes exactly at the resolution of its
literal path and leaves the directories alone. -/
lemma createFileLit_eq : ∀ (comps : List PathComp) (cur : List String) {fs fs' : FS}
    {c : List Nat}, createFileLit fs c cur comps = some fs' →
    fs'.dirs = fs.dirs ∧
    fs'.files = (resolveComps cur comps, c) ::
      fs.files.filter (fun r => !(r.1 == resolveComps cur comps)) := by
  intro comps
  induction comps with
  | nil =>
    intro cur fs fs' c h
    exact Option.noConfusion h
  | cons hd rest ih =>
    intro cur fs fs' c h
    cases hd with
    | normal s =>
      cases rest with
      | nil =>
        have h2 : (if fs.dirs.contains (cur ++ [s]) = true then none
            else some (FS.mk ((cur ++ [s], c) ::
              fs.files.filter (fun r => !(r.1 == cur ++ [s]))) fs.dirs)) = some fs' := h
        by_cases hc : fs.dirs.contains (cur ++ [s]) = true
        · rw [if_pos hc] at h2
          exact Option.noConfusion h2
        · rw [if_neg hc] at h2
          injection h2 with h'
          subst h'
          exact ⟨rfl, rfl⟩
      | cons r rs =>
        have h2 : (if fs.dirs.contains (cur ++ [s]) = true
            then createFileLit fs c (cur ++ [s]) (r :: rs)
            else none) = some fs' := h
        by_cases hc : fs.dirs.contains (cur ++ [s]) = true
        · rw [if_pos hc] at h2
          exact ih (cur ++ [s]) h2
        · rw [if_neg hc] at h2
          exact Option.noConfusion h2
    | parentDir =>
      cases rest with
      | nil => exact Option.noConfusion h
      | cons r rs => exact ih cur.dropLast h
    | curDir =>
      cases rest with
      | nil => exact Option.noConfusion h
      | cons r rs => exact ih cur h
    | rootDir =>
      cases rest with
      | nil => exact Option.noConfusion h
      | cons r rs => exact ih [] h

/-! ## Syscall lemmas: all-normal paths -/

lemma prefix_cons_inv {α : Type} {q : List α} {s : α} {rest : List α}
    (hq : q <+: s :: rest) (hq1 : q ≠ []) : ∃ t, t <+: rest ∧ q = s :: t := by
  rcases q with - | ⟨a, u⟩
  · exact absurd rfl hq1
  · obtain ⟨heq, hu⟩ := (List.cons_prefix_cons).mp hq
    exact ⟨u, hu, by rw [heq]⟩

lemma fileLookup_congr {fs fs' : FS} (h : fs'.files = fs.files) (p : List String) :
    fileLookup fs' p = fileLookup fs p := by
  unfold fileLookup
  rw [h]

lemma pathExists_false {fs : FS} {p : List String}
    (hf : fileLookup fs p = none) (hd : p ∉ fs.dirs) : pathExists fs p = false := by
  unfold pathExists
  rw [hf]
  have hc : fs.dirs.contains p = false := by
    rw [Bool.eq_false_iff]
    intro h
    exact hd (contains_iff_mem.mp h)
  rw [hc]
  rfl

lemma pathExists_mem_dirs {fs : FS} {p : List String} (hd : p ∈ fs.dirs) :
    pathExists fs p = true := by
  unfold pathExists
  rw [contains_iff_mem.mpr hd, Bool.or_true]

lemma mem_dirs_of_pathExists {fs : FS} {p : List String}
    (h : pathExists fs p = true) (hf : fileLookup fs p = none) : p ∈ fs.dirs := by
  unfold pathExists at h
  rw [hf] at h
  simp only [Option.isSome_none, Bool.false_or] at h
  exact contains_iff_mem.mp h

/-- `Path::exists` fails on a plain path whose object is absent, whatever the
intermediate directories. -/
lemma statLit_normals_false (fs : FS) : ∀ (ns cur : List String), ns ≠ [] →
    pathExists fs (cur ++ ns) = false →
    statLit fs cur (ns.map PathComp.normal) = false := by
  intro ns
  induction ns with
  | nil =>
    intro cur h _
    exact absurd rfl h
  | cons s rest ih =>
    intro cur _ hex
    cases rest with
    | nil => exact hex
    | cons r rs =>
      show (fs.dirs.contains (cur ++ [s]) &&
        statLit fs (cur ++ [s]) ((r :: rs).map PathComp.normal)) = false
      rw [ih (cur ++ [s]) (by simp) (by rw [← List.append_cons]; exact hex)]
      exact Bool.and_false _

/-- `Path::exists` succeeds on a plain path whose ancestors are directories
and whose object exists. -/
lemma statLit_normals_true (fs : FS) : ∀ (ns cur : List String), ns ≠ [] →
    (∀ q, q <+: ns → q ≠ [] → q ≠ ns → (cur ++ q) ∈ fs.dirs) →
    pathExists fs (cur ++ ns) = true →
    statLit fs cur (ns.map PathComp.normal) = true := by
  intro ns
  induction ns with
  | nil =>
    intro cur h
    exact absurd rfl h
  | cons s rest ih =>
    intro cur _ hch hex
    cases rest with
    | nil => exact hex
    | cons r rs =>
      show (fs.dirs.contains (cur ++ [s]) &&
        statLit fs (cur ++ [s]) ((r :: rs).map PathComp.normal)) = true
      have hc : fs.dirs.contains (cur ++ [s]) = true :=
        contains_iff_mem.mpr (hch [s] ⟨r :: rs, rfl⟩ (by simp) (by simp))
      have hrec : statLit fs (cur ++ [s]) ((r :: rs).map PathComp.normal) = true := by
        refine ih (cur ++ [s]) (by simp) ?_ (by rw [← List.append_cons]; exact hex)
        intro q hq hq1 hq2
        rw [← List.append_cons]
        refine hch (s :: q) ((List.cons_prefix_cons).mpr ⟨rfl, hq⟩) (by simp) ?_
        intro h
        injection h with h1 h2
        exact hq2 h2
      rw [hc, hrec]
      rfl

lemma isDirLit_normals_true (fs : FS) : ∀ (ns cur : List String),
    (∀ q, q <+: ns → q ≠ [] → (cur ++ q) ∈ fs.dirs) →
    isDirLit fs cur (ns.map PathComp.normal) = true := by
  intro ns
  induction ns with
  | nil =>
    intro cur _
    rfl
  | cons s rest ih =>
    intro cur hch
    cases rest with
    | nil =>
      show fs.dirs.contains (cur ++ [s]) = true
      exact contains_iff_mem.mpr (hch [s] (List.prefix_refl _) (by simp))
    | cons r rs =>
      show (fs.dirs.contains (cur ++ [s]) &&
        isDirLit fs (cur ++ [s]) ((r :: rs).map PathComp.normal)) = true
      have hc : fs.dirs.contains (cur ++ [s]) = true :=
        contains_iff_mem.mpr (hch [s] ⟨r :: rs, rfl⟩ (by simp))
      have hrec : isDirLit fs (cur ++ [s]) ((r :: rs).map PathComp.normal) = true := by
        refine ih (cur ++ [s]) ?_
        intro q hq hq1
        rw [← List.append_cons]
        exact hch (s :: q) ((List.cons_prefix_cons).mpr ⟨rfl, hq⟩) (by simp)
      rw [hc, hrec]
      rfl

lemma isDirLit_normals_chain (fs : FS) : ∀ (ns cur : List String),
    isDirLit fs cur (ns.map PathComp.normal) = true →
    ∀ q, q <+: ns → q ≠ [] → (cur ++ q) ∈ fs.dirs := by
  intro ns
  induction ns with
  | nil =>
    intro cur _ q hq hq1
    exact absurd (List.prefix_nil.mp hq) hq1
  | cons s rest ih =>
    intro cur h q hq hq1
    obtain ⟨t, ht, rfl⟩ := prefix_cons_inv hq hq1
    cases rest with
    | nil =>
      have ht' : t = [] := List.prefix_nil.mp ht
      subst ht'
      have h' : fs.dirs.contains (cur ++ [s]) = true := h
      exact contains_iff_mem.mp h'
    | cons r rs =>
      have h' : (fs.dirs.contains (cur ++ [s]) &&
        isDirLit fs (cur ++ [s]) ((r :: rs).map PathComp.normal)) = true := h
      rw [Bool.and_eq_true] at h'
      rcases t with - | ⟨b, u⟩
      · exact contains_iff_mem.mp h'.1
      · rw [List.append_cons]
        exact ih (cur ++ [s]) h'.2 (b :: u) ht (by simp)

/-- `mkdir` on a plain path with its ancestors in place: `EEXIST` when the
object exists, otherwise the directory is created. -/
lemma mkdirLit_normals (fs : FS) : ∀ (ns cur : List String), ns ≠ [] →
    (∀ q, q <+: ns → q ≠ [] → q ≠ ns → (cur ++ q) ∈ fs.dirs) →
    mkdirLit fs cur (ns.map PathComp.normal) =
      (if pathExists fs (cur ++ ns) = true then .exist
       else .ok (FS.mk fs.files ((cur ++ ns) :: fs.dirs))) := by
  intro ns
  induction ns with
  | nil =>
    intro cur h
    exact absurd rfl h
  | cons s rest ih =>
    intro cur _ hch
    cases rest with
    | nil => rfl
    | cons r rs =>
      show (if fs.dirs.contains (cur ++ [s]) = true
          then mkdirLit fs (cur ++ [s]) ((r :: rs).map PathComp.normal)
          else if (fileLookup fs (cur ++ [s])).isSome = true then MkdirRes.notDir
          else MkdirRes.missing) = _
      have hch2 : ∀ q, q <+: (r :: rs) → q ≠ [] → q ≠ r :: rs →
          ((cur ++ [s]) ++ q) ∈ fs.dirs := by
        intro q hq hq1 hq2
        rw [← List.append_cons]
        refine hch (s :: q) ((List.cons_prefix_cons).mpr ⟨rfl, hq⟩) (by simp) ?_
        intro h
        injection h with h1 h2
        exact hq2 h2
      rw [if_pos (contains_iff_mem.mpr (hch [s] ⟨r :: rs, rfl⟩ (by simp) (by simp))),
        ih (cur ++ [s]) (by simp) hch2, ← List.append_cons]

/-- `mkdir` reports `ENOENT` when an ancestor of a plain path is missing and
no file blocks the walk. -/
lemma mkdirLit_normals_missing (fs : FS) : ∀ (ns cur : List String),
    (∀ q, q <+: ns → fileLookup fs (cur ++ q) = none) →
    (∃ q, q <+: ns ∧ q ≠ [] ∧ q ≠ ns ∧ (cur ++ q) ∉ fs.dirs) →
    mkdirLit fs cur (ns.map PathComp.normal) = .missing := by
  intro ns
  induction ns with
  | nil =>
    intro cur _ hw
    obtain ⟨q, hq, hq1, -, -⟩ := hw
    exact absurd (List.prefix_nil.mp hq) hq1
  | cons s rest ih =>
    intro cur hfile hw
    cases rest with
    | nil =>
      obtain ⟨q, hq, hq1, hq2, -⟩ := hw
      obtain ⟨t, ht, rfl⟩ := prefix_cons_inv hq hq1
      have ht' : t = [] := List.prefix_nil.mp ht
      subst ht'
      exact absurd rfl hq2
    | cons r rs =>
      show (if fs.dirs.contains (cur ++ [s]) = true
          then mkdirLit fs (cur ++ [s]) ((r :: rs).map PathComp.normal)
          else if (fileLookup fs (cur ++ [s])).isSome = true then MkdirRes.notDir
          else MkdirRes.missing) = .missing
      by_cases hc : fs.dirs.contains (cur ++ [s]) = true
      · rw [if_pos hc]
        obtain ⟨q, hq, hq1, hq2, hq3⟩ := hw
        obtain ⟨t, ht, rfl⟩ := prefix_cons_inv hq hq1
        rcases t with - | ⟨b, u⟩
        · exact absurd (contains_iff_mem.mp hc) hq3
        refine ih (cur ++ [s]) ?_ ⟨b :: u, ht, by simp, ?_, ?_⟩
        · intro q hq'
          rw [← List.append_cons]
          exact hfile (s :: q) ((List.cons_prefix_cons).mpr ⟨rfl, hq'⟩)
        · intro h
          exact hq2 (by rw [h])
        · rw [← List.append_cons]
          exact hq3
      · rw [if_neg hc]
        have h1 : fileLookup fs (cur ++ [s]) = none := hfile [s] ⟨r :: rs, rfl⟩
        rw [h1]
        rfl

/-- `File::create` on a plain path with its ancestors in place and no
directory at the target writes exactly the target file. -/
lemma createFileLit_normals (fs : FS) (c : List Nat) : ∀ (ns cur : List String), ns ≠ [] →
    (∀ q, q <+: ns → q ≠ [] → q ≠ ns → (cur ++ q) ∈ fs.dirs) →
    (cur ++ ns) ∉ fs.dirs →
    createFileLit fs c cur (ns.map PathComp.normal) =
      some (FS.mk ((cur ++ ns, c) :: fs.files.filter (fun r => !(r.1 == cur ++ ns)))
        fs.dirs) := by
  intro ns
  induction ns with
  | nil =>
    intro cur h
    exact absurd rfl h
  | cons s rest ih =>
    intro cur _ hch htgt
    cases rest with
    | nil =>
      show (if fs.dirs.contains (cur ++ [s]) = true then none
          else some (FS.mk ((cur ++ [s], c) ::
            fs.files.filter (fun r => !(r.1 == cur ++ [s]))) fs.dirs)) = _
      have hnc : ¬ fs.dirs.contains (cur ++ [s]) = true :=
        fun hc => htgt (contains_iff_mem.mp hc)
      rw [if_neg hnc]
    | cons r rs =>
      show (if fs.dirs.contains (cur ++ [s]) = true
          then createFileLit fs c (cur ++ [s]) ((r :: rs).map PathComp.normal)
          else none) = _
      have hc : fs.dirs.contains (cur ++ [s]) = true :=
        contains_iff_mem.mpr (hch [s] ⟨r :: rs, rfl⟩ (by simp) (by simp))
      have hch2 : ∀ q, q <+: (r :: rs) → q ≠ [] → q ≠ r :: rs →
          ((cur ++ [s]) ++ q) ∈ fs.dirs := by
        intro q hq hq1 hq2
        rw [← List.append_cons]
        refine hch (s :: q) ((List.cons_prefix_cons).mpr ⟨rfl, hq⟩) (by simp) ?_
        intro h
        injection h with h1 h2
        exact hq2 h2
      have htgt2 : ((cur ++ [s]) ++ (r :: rs)) ∉ fs.dirs := by
        rw [← List.append_cons]
        exact htgt
      rw [if_pos hc, ih (cur ++ [s]) (by simp) hch2 htgt2, ← List.append_cons]

/-- A successful `File::create` walked every ancestor of its plain path as a
directory. -/
lemma createFileLit_normals_chain (fs : FS) (c : List Nat) :
    ∀ (ns cur : List String) {fs' : FS},
    createFileLit fs c cur (ns.map PathComp.normal) = some fs' →
    ∀ q, q <+: ns → q ≠ [] → q ≠ ns → (cur ++ q) ∈ fs.dirs := by
  intro ns
  induction ns with
  | nil =>
    intro cur fs' h
    exact Option.noConfusion h
  | cons s rest ih =>
    intro cur fs' h q hq hq1 hq2
    obtain ⟨t, ht, rfl⟩ := prefix_cons_inv hq hq1
    cases rest with
    | nil =>
      have ht' : t = [] := List.prefix_nil.mp ht
      subst ht'
      exact absurd rfl hq2
    | cons r rs =>
      have h2 : (if fs.dirs.contains (cur ++ [s]) = true
          then createFileLit fs c (cur ++ [s]) ((r :: rs).map PathComp.normal)
          else none) = some fs' := h
      by_cases hc : fs.dirs.contains (cur ++ [s]) = true
      · rw [if_pos hc] at h2
        rcases t with - | ⟨b, u⟩
        · exact contains_iff_mem.mp hc
        · rw [List.append_cons]
          refine ih (cur ++ [s]) h2 (b :: u) ht (by simp) ?_
          intro he
          exact hq2 (by rw [he])
      · rw [if_neg hc] at h2
        exact Option.noConfusion h2

/-- `create_dir_all` on a plain path free of blocking files succeeds, leaves
the files alone, and the resulting directories are exactly the old ones plus
the nonempty prefixes of the path. -/
lemma createDirAllAux_normals : ∀ (fuel : Nat) (Q : List String) (fs : FS),
    Q.length ≤ fuel → (∀ q, q <+: Q → fileLookup fs q = none) →
    ∃ fs', createDirAllAux fs fuel (Q.map PathComp.normal) = (fs', true) ∧
      fs'.files = fs.files ∧
      (∀ d, d ∈ fs'.dirs ↔ (d ∈ fs.dirs ∨ (d <+: Q ∧ d ≠ []))) := by
  intro fuel
  induction fuel with
  | zero =>
    intro Q fs hlen hfile
    have hQ : Q = [] := List.length_eq_zero.mp (Nat.le_zero.mp hlen)
    subst hQ
    refine ⟨fs, rfl, rfl, fun d => ?_⟩
    simp only [List.prefix_nil]
    constructor
    · exact fun h => .inl h
    · rintro (h | ⟨rfl, h⟩)
      · exact h
      · exact absurd rfl h
  | succ fuel ih =>
    intro Q fs hlen hfile
    cases Q with
    | nil =>
      refine ⟨fs, rfl, rfl, fun d => ?_⟩
      simp only [List.prefix_nil]
      constructor
      · exact fun h => .inl h
      · rintro (h | ⟨rfl, h⟩)
        · exact h
        · exact absurd rfl h
    | cons x xs =>
      by_cases hall : ∀ q, q <+: x :: xs → q ≠ [] → q ≠ x :: xs → q ∈ fs.dirs
      · have hmk := mkdirLit_normals fs (x :: xs) [] (by simp)
          (fun q hq h1 h2 => by simpa using hall q hq h1 h2)
        simp only [List.nil_append] at hmk
        by_cases hex : pathExists fs (x :: xs) = true
        · rw [if_pos hex] at hmk
          have hQdir : x :: xs ∈ fs.dirs :=
            mem_dirs_of_pathExists hex (hfile _ (List.prefix_refl _))
          have hisd : isDirLit fs [] ((x :: xs).map PathComp.normal) = true := by
            refine isDirLit_normals_true fs (x :: xs) [] ?_
            intro q hq h1
            rw [List.nil_append]
            by_cases hq2 : q = x :: xs
            · rw [hq2]; exact hQdir
            · exact hall q hq h1 hq2
          refine ⟨fs, ?_, rfl, ?_⟩
          · rw [createDirAllAux_exist hmk, hisd]
          · intro d
            constructor
            · exact fun h => .inl h
            · rintro (h | ⟨hp, hne⟩)
              · exact h
              · by_cases hdq : d = x :: xs
                · rw [hdq]; exact hQdir
                · exact hall d hp hne hdq
        · rw [if_neg hex] at hmk
          refine ⟨FS.mk fs.files ((x :: xs) :: fs.dirs), createDirAllAux_ok hmk, rfl, ?_⟩
          intro d
          show d ∈ (x :: xs) :: fs.dirs ↔ _
          rw [List.mem_cons]
          constructor
          · rintro (rfl | h)
            · exact .inr ⟨List.prefix_refl _, by simp⟩
            · exact .inl h
          · rintro (h | ⟨hp, hne⟩)
            · exact .inr h
            · by_cases hdq : d = x :: xs
              · exact .inl hdq
              · exact .inr (hall d hp hne hdq)
      · push_neg at hall
        obtain ⟨w, hw1, hw2, hw3, hw4⟩ := hall
        have hmk : mkdirLit fs [] ((x :: xs).map PathComp.normal) = .missing := by
          refine mkdirLit_normals_missing fs (x :: xs) [] ?_ ⟨w, hw1, hw2, hw3, ?_⟩
          · intro q hq
            rw [List.nil_append]
            exact hfile q hq
          · rw [List.nil_append]
            exact hw4
        have heq := @createDirAllAux_missing fs ((x :: xs).map PathComp.normal) fuel hmk
        rw [dropLast_map_normal] at heq
        obtain ⟨fs1, hrec, hf1, hd1⟩ := ih (x :: xs).dropLast fs
          (by simp only [List.length_dropLast, List.length_cons]
              simp only [List.length_cons] at hlen
              omega)
          (fun q hq => hfile q (hq.trans ( List.dropLast_prefix _)))
        rw [hrec] at heq
        dsimp only at heq
        have hch1 : ∀ q, q <+: x :: xs → q ≠ [] → q ≠ x :: xs → q ∈ fs1.dirs := by
          intro q hq h1 h2
          exact (hd1 q).mpr (.inr ⟨prefix_dropLast_of_proper hq h2, h1⟩)
        have hmk2 := mkdirLit_normals fs1 (x :: xs) [] (by simp)
          (fun q hq h1 h2 => by simpa using hch1 q hq h1 h2)
        simp only [List.nil_append] at hmk2
        by_cases hex1 : pathExists fs1 (x :: xs) = true
        · rw [if_pos hex1] at hmk2
          rw [hmk2] at heq
          dsimp only at heq
          have hQdir : x :: xs ∈ fs1.dirs := by
            refine mem_dirs_of_pathExists hex1 ?_
            rw [fileLookup_congr hf1]
            exact hfile _ (List.prefix_refl _)
          have hisd : isDirLit fs1 [] ((x :: xs).map PathComp.normal) = true := by
            refine isDirLit_normals_true fs1 (x :: xs) [] ?_
            intro q hq h1
            rw [List.nil_append]
            by_cases hq2 : q = x :: xs
            · rw [hq2]; exact hQdir
            · exact hch1 q hq h1 hq2
          rw [hisd] at heq
          refine ⟨fs1, heq, hf1, ?_⟩
          intro d
          rw [hd1 d]
          constructor
          · rintro (h | ⟨hp, hne⟩)
            · exact .inl h
            · exact .inr ⟨hp.trans ( List.dropLast_prefix _), hne⟩
          · rintro (h | ⟨hp, hne⟩)
            · exact .inl h
            · by_cases hdq : d = x :: xs
              · rw [← hd1 d, hdq]
                exact hQdir
              · exact .inr ⟨prefix_dropLast_of_proper hp hdq, hne⟩
        · rw [if_neg hex1] at hmk2
          rw [hmk2] at heq
          dsimp only at heq
          refine ⟨FS.mk fs1.files ((x :: xs) :: fs1.dirs), heq, hf1, ?_⟩
          intro d
          show d ∈ (x :: xs) :: fs1.dirs ↔ _
          rw [List.mem_cons, hd1 d]
          constructor
          · rintro (rfl | h | ⟨hp, hne⟩)
            · exact .inr ⟨List.prefix_refl _, by simp⟩
            · exact .inl h
            · exact .inr ⟨hp.trans ( List.dropLast_prefix _), hne⟩
          · rintro (h | ⟨hp, hne⟩)
            · exact .inr (.inl h)
            · by_cases hdq : d = x :: xs
              · exact .inl hdq
              · exact .inr (.inr ⟨prefix_dropLast_of_proper hp hdq, hne⟩)

lemma createDirAllLit_normals {Q : List String} {fs : FS}
    (hfile : ∀ q, q <+: Q → fileLookup fs q = none) :
    ∃ fs', createDirAllLit fs (Q.map PathComp.normal) = (fs', true) ∧
      fs'.files = fs.files ∧
      (∀ d, d ∈ fs'.dirs ↔ (d ∈ fs.dirs ∨ (d <+: Q ∧ d ≠ []))) :=
  createDirAllAux_normals (Q.map PathComp.normal).length Q fs
    (by rw [List.length_map]) hfile

/-- `mkdir` succeeding on a plain path leaves the whole ancestor chain as
directories. -/
lemma mkdirLit_normals_ok_chain : ∀ (ns cur : List String) {fs fs' : FS},
    mkdirLit fs cur (ns.map PathComp.normal) = .ok fs' →
    ∀ q, q <+: ns → q ≠ [] → (cur ++ q) ∈ fs'.dirs := by
  intro ns
  induction ns with
  | nil =>
    intro cur fs fs' h
    exact MkdirRes.noConfusion h
  | cons s rest ih =>
    intro cur fs fs' h q hq hq1
    obtain ⟨t, ht, rfl⟩ := prefix_cons_inv hq hq1
    cases rest with
    | nil =>
      have ht' : t = [] := List.prefix_nil.mp ht
      subst ht'
      have h2 : (if pathExists fs (cur ++ [s]) = true then MkdirRes.exist
          else MkdirRes.ok (FS.mk fs.files ((cur ++ [s]) :: fs.dirs))) = MkdirRes.ok fs' := h
      by_cases hex : pathExists fs (cur ++ [s]) = true
      · rw [if_pos hex] at h2
        exact MkdirRes.noConfusion h2
      · rw [if_neg hex] at h2
        injection h2 with h3
        rw [← h3]
        exact List.mem_cons_self _ _
    | cons r rs =>
      have h2 : (if fs.dirs.contains (cur ++ [s]) = true
          then mkdirLit fs (cur ++ [s]) ((r :: rs).map PathComp.normal)
          else if (fileLookup fs (cur ++ [s])).isSome = true then MkdirRes.notDir
          else MkdirRes.missing) = MkdirRes.ok fs' := h
      by_cases hc : fs.dirs.contains (cur ++ [s]) = true
      · rw [if_pos hc] at h2
        rcases t with - | ⟨b, u⟩
        · obtain ⟨-, hd⟩ := mkdirLit_ok ((r :: rs).map PathComp.normal) (cur ++ [s]) h2
          rw [hd]
          exact List.mem_cons_of_mem _ (contains_iff_mem.mp hc)
        · rw [List.append_cons]
          exact ih (cur ++ [s]) h2 (b :: u) ht (by simp)
      · rw [if_neg hc] at h2
        by_cases hf : (fileLookup fs (cur ++ [s])).isSome = true
        · rw [if_pos hf] at h2
          exact MkdirRes.noConfusion h2
        · rw [if_neg hf] at h2
          exact MkdirRes.noConfusion h2

/-- A successful `create_dir_all` on a plain path leaves every nonempty
prefix of the path as a directory. -/
lemma createDirAllAux_normals_chain : ∀ (fuel : Nat) (Q : List String) (fs fs' : FS),
    createDirAllAux fs fuel (Q.map PathComp.normal) = (fs', true) →
    ∀ q, q <+: Q → q ≠ [] → q ∈ fs'.dirs := by
  intro fuel Q fs fs' h q hq hq1
  cases Q with
  | nil => exact absurd (List.prefix_nil.mp hq) hq1
  | cons x xs =>
    cases fuel with
    | zero =>
      have h2 : ((fs, false) : FS × Bool) = (fs', true) := h
      injection h2 with h3x h4
      exact Bool.noConfusion h4
    | succ fuel =>
      rcases hmk : mkdirLit fs [] ((x :: xs).map PathComp.normal) with fs2 | - | - | -
      · rw [createDirAllAux_ok hmk] at h
        injection h with h3 h4x
        rw [← h3]
        simpa using mkdirLit_normals_ok_chain (x :: xs) [] hmk q hq hq1
      · rw [createDirAllAux_exist hmk] at h
        injection h with h3 h4
        rw [← h3]
        simpa using isDirLit_normals_chain fs (x :: xs) [] h4 q hq hq1
      · rw [@createDirAllAux_missing fs ((x :: xs).map PathComp.normal) fuel hmk] at h
        rcases hrec : createDirAllAux fs fuel ((x :: xs).map PathComp.normal).dropLast
          with ⟨fs1, b⟩
        rw [hrec] at h
        cases b with
        | false =>
          dsimp only at h
          injection h with h3x h4
          exact Bool.noConfusion h4
        | true =>
          dsimp only at h
          rcases hmk2 : mkdirLit fs1 [] ((x :: xs).map PathComp.normal) with fs2 | - | - | -
          · rw [hmk2] at h
            dsimp only at h
            injection h with h3 h4x
            rw [← h3]
            simpa using mkdirLit_normals_ok_chain (x :: xs) [] hmk2 q hq hq1
          · rw [hmk2] at h
            dsimp only at h
            injection h with h3 h4
            rw [← h3]
            simpa using isDirLit_normals_chain fs1 (x :: xs) [] h4 q hq hq1
          · rw [hmk2] at h
            dsimp only at h
            injection h with h3 h4
            rw [← h3]
            simpa using isDirLit_normals_chain fs1 (x :: xs) [] h4 q hq hq1
          · rw [hmk2] at h
            dsimp only at h
            injection h with h3 h4
            rw [← h3]
            simpa using isDirLit_normals_chain fs1 (x :: xs) [] h4 q hq hq1
      · rw [createDirAllAux_notDir hmk] at h
        injection h with h3 h4
        rw [← h3]
        simpa using isDirLit_normals_chain fs (x :: xs) [] h4 q hq hq1

lemma createDirAllLit_normals_chain {Q : List String} {fs fs' : FS}
    (h : createDirAllLit fs (Q.map PathComp.normal) = (fs', true)) :
    ∀ q, q <+: Q → q ≠ [] → q ∈ fs'.dirs :=
  createDirAllAux_normals_chain _ Q fs fs' h

/-- `create_dir_all` on a plain path whose nonempty prefixes already exist
as directories is a no-op. -/
lemma createDirAllLit_exists_dirs : ∀ (Q : List String) (fs : FS),
    (∀ q, q <+: Q → q ≠ [] → q ∈ fs.dirs) →
    createDirAllLit fs (Q.map PathComp.normal) = (fs, true) := by
  intro Q fs h
  cases Q with
  | nil => rfl
  | cons x xs =>
    have hmk := mkdirLit_normals fs (x :: xs) [] (by simp)
      (fun q hq h1 _ => by simpa using h q hq h1)
    simp only [List.nil_append] at hmk
    rw [if_pos (pathExists_mem_dirs (h _ (List.prefix_refl _) (by simp)))] at hmk
    have hisd : isDirLit fs [] ((x :: xs).map PathComp.normal) = true := by
      refine isDirLit_normals_true fs (x :: xs) [] ?_
      intro q hq h1
      rw [List.nil_append]
      exact h q hq h1
    show createDirAllAux fs (((x :: xs).map PathComp.normal).length)
      ((x :: xs).map PathComp.normal) = (fs, true)
    have hlen : ((x :: xs).map PathComp.normal).length = xs.length + 1 := by
      rw [List.length_map]
      rfl
    rw [hlen, createDirAllAux_exist hmk, hisd]

/-! ## Extraction step lemmas -/

lemma enclosedName_checkDepth {name : String} {comps : List PathComp}
    (h : enclosedName name = some comps) : checkDepth comps 0 = true := by
  unfold enclosedName at h
  by_cases h1 : name.data.contains (Char.ofNat 0) = true
  · rw [if_pos h1] at h
    exact Option.noConfusion h
  · rw [if_neg h1] at h
    by_cases h2 : checkDepth (toComponents name) 0 = true
    · rw [if_pos h2] at h
      injection h with h3
      rw [← h3]
      exact h2
    · rw [if_neg h2] at h
      exact Option.noConfusion h

/-- A prefix of the literal joined path resolves to an ancestor of the base
or inside the base. -/
lemma litPrefix_resolve {dir : List String} {comps : List PathComp}
    (hcd : checkDepth comps 0 = true) {L : List PathComp}
    (hL : L <+: litPath dir comps) :
    resolveComps [] L <+: dir ∨ dir <+: resolveComps [] L := by
  have hL2 : L <+: dir.map PathComp.normal ++ comps := hL
  rcases prefix_append_cases hL2 with h | ⟨B, hB, rfl⟩
  · left
    have hLf : L = (dir.take L.length).map PathComp.normal := by
      conv_lhs => rw [List.prefix_iff_eq_take.mp h]
      rw [← List.map_take]
    rw [hLf, resolve_normals, List.nil_append]
    exact List.take_prefix _ _
  · right
    rw [resolve_lit, List.nil_append]
    obtain ⟨t, rfl⟩ := hB
    have hcdB : checkDepth B 0 = true := checkDepth_append B t 0 hcd
    have h2 := checkDepth_resolve B dir [] (by simpa using hcdB)
    simpa using h2

/-- The full literal path resolves inside the base. -/
lemma litPath_resolve_extends {dir : List String} {comps : List PathComp}
    (hcd : checkDepth comps 0 = true) :
    dir <+: resolveComps [] (litPath dir comps) := by
  have h : resolveComps [] (litPath dir comps) = resolveComps dir comps := by
    unfold litPath
    rw [resolve_lit, List.nil_append]
  rw [h]
  have h2 := checkDepth_resolve comps dir [] (by simpa using hcd)
  simpa using h2

lemma resolve_normals_nil (ns : List String) :
    resolveComps [] (ns.map PathComp.normal) = ns := by
  rw [resolve_normals]
  exact List.nil_append ns

lemma unzip_file_cons_none (dir : List String) (force debug : Bool)
    (rest : List (Option EntryData)) (fs : FS) :
    unzip_file dir force debug (none :: rest) fs = unzip_file dir force debug rest fs := rfl

lemma unzip_file_cons_err {dir : List String} {force debug : Bool} {fs fs1 : FS}
    {e : EntryData} {lg : List (List PathComp)} {err : ExtractError}
    (h : unzipStep dir force debug fs e = (fs1, lg, some err))
    (rest : List (Option EntryData)) :
    unzip_file dir force debug (some e :: rest) fs = ⟨fs1, lg, some err⟩ := by
  rw [unzip_file, h]

lemma unzip_file_cons_ok {dir : List String} {force debug : Bool} {fs fs1 : FS}
    {e : EntryData} {lg : List (List PathComp)}
    (h : unzipStep dir force debug fs e = (fs1, lg, none))
    (rest : List (Option EntryData)) :
    unzip_file dir force debug (some e :: rest) fs =
      ⟨(unzip_file dir force debug rest fs1).fs,
        lg ++ (unzip_file dir force debug rest fs1).logs,
        (unzip_file dir force debug rest fs1).err⟩ := by
  rw [unzip_file, h]

lemma unzipStep_skip {e : EntryData} (dir : List String) (force debug : Bool) (fs : FS)
    (h : enclosedName e.raw_name = none) :
    unzipStep dir force debug fs e = (fs, [], none) := by
  unfold unzipStep
  rw [h]

lemma unzipStep_eq_of_out {e : EntryData} {comps : List PathComp}
    (dir : List String) (force debug : Bool) (fs : FS)
    (h : enclosedName e.raw_name = some comps) :
    unzipStep dir force debug fs e =
      if (statLit fs [] (litPath dir comps) && !force) = true then
        (fs, stepLog debug (litPath dir comps),
          some (.alreadyExists (litPath dir comps)))
      else
        ((writeEntry fs e (litPath dir comps)).1, stepLog debug (litPath dir comps),
          (writeEntry fs e (litPath dir comps)).2) := by
  unfold unzipStep
  rw [h]

lemma unzipStep_abort {e : EntryData} {comps : List PathComp} {fs : FS}
    (dir : List String) (debug : Bool)
    (h : enclosedName e.raw_name = some comps)
    (hex : statLit fs [] (litPath dir comps) = true) :
    unzipStep dir false debug fs e =
      (fs, stepLog debug (litPath dir comps),
        some (.alreadyExists (litPath dir comps))) := by
  rw [unzipStep_eq_of_out dir false debug fs h]
  rw [if_pos (by rw [hex]; rfl)]

lemma writeEntry_dir (fs : FS) (e : EntryData) (out : List PathComp)
    (hd : isDirEntry e = true) :
    writeEntry fs e out =
      (match createDirAllLit fs out with
       | (fs1, false) => (fs1, some (.failCreate out))
       | (fs1, true) => (fs1, none)) := by
  unfold writeEntry
  rw [hd]
  rw [if_pos rfl]

lemma writeEntry_file (fs : FS) (e : EntryData) (out : List PathComp)
    (hd : isDirEntry e = false) :
    writeEntry fs e out =
      (match createDirAllLit fs out.dropLast with
       | (fs1, false) => (fs1, some (.failCreate out.dropLast))
       | (fs1, true) =>
         match createFileLit fs1 e.content [] out with
         | none => (fs1, some (.failCreate out))
         | some fs2 => (fs2, none)) := by
  unfold writeEntry
  rw [hd]
  rw [if_neg (by simp)]

lemma writeEntry_file_ok {fs fs1 fs2 : FS} {e : EntryData} {out : List PathComp}
    (hd : isDirEntry e = false)
    (hca : createDirAllLit fs out.dropLast = (fs1, true))
    (hcf : createFileLit fs1 e.content [] out = some fs2) :
    writeEntry fs e out = (fs2, none) := by
  rw [writeEntry_file fs e out hd, hca]
  dsimp only
  rw [hcf]

/-- The write phase never reports the "already exists" error. -/
lemma writeEntry_err_cases (fs : FS) (e : EntryData) (out : List PathComp) :
    ∀ p, (writeEntry fs e out).2 ≠ some (.alreadyExists p) := by
  intro p
  by_cases hd : isDirEntry e = true
  · rw [writeEntry_dir fs e out hd]
    rcases h1 : createDirAllLit fs out with ⟨fs1, b⟩
    cases b with
    | false =>
      dsimp only
      intro hcontra
      injection hcontra with h2
      exact ExtractError.noConfusion h2
    | true =>
      dsimp only
      exact fun h => Option.noConfusion h
  · have hdF : isDirEntry e = false := by
      rw [Bool.eq_false_iff]
      exact hd
    rw [writeEntry_file fs e out hdF]
    rcases h1 : createDirAllLit fs out.dropLast with ⟨fs1, b⟩
    cases b with
    | false =>
      dsimp only
      intro hcontra
      injection hcontra with h2
      exact ExtractError.noConfusion h2
    | true =>
      dsimp only
      rcases h2 : createFileLit fs1 e.content [] out with - | fs2
      · dsimp only
        intro hcontra
        injection hcontra with h3
        exact ExtractError.noConfusion h3
      · dsimp only
        exact fun h => Option.noConfusion h

lemma writeEntry_dirs_mono (fs : FS) (e : EntryData) (out : List PathComp) :
    ∀ d ∈ fs.dirs, d ∈ (writeEntry fs e out).1.dirs := by
  intro d hd
  by_cases hdE : isDirEntry e = true
  · rw [writeEntry_dir fs e out hdE]
    rcases h1 : createDirAllLit fs out with ⟨fs1, b⟩
    have hm : d ∈ fs1.dirs := by
      have h2 := createDirAllAux_mono out.length out fs d hd
      unfold createDirAllLit at h1
      rw [h1] at h2
      exact h2
    cases b with
    | false => exact hm
    | true => exact hm
  · have hdF : isDirEntry e = false := by
      rw [Bool.eq_false_iff]
      exact hdE
    rw [writeEntry_file fs e out hdF]
    rcases h1 : createDirAllLit fs out.dropLast with ⟨fs1, b⟩
    have hm : d ∈ fs1.dirs := by
      have h2 := createDirAllAux_mono out.dropLast.length out.dropLast fs d hd
      unfold createDirAllLit at h1
      rw [h1] at h2
      exact h2
    cases b with
    | false => exact hm
    | true =>
      dsimp only
      rcases h2 : createFileLit fs1 e.content [] out with - | fs2
      · exact hm
      · dsimp only
        obtain ⟨hdirs, -⟩ := createFileLit_eq out [] h2
        rw [hdirs]
        exact hm

/-- The write phase leaves the files alone or (re)writes exactly the file at
the resolution of the literal output path. -/
lemma writeEntry_files_cases (fs : FS) (e : EntryData) (out : List PathComp) :
    (writeEntry fs e out).1.files = fs.files ∨
    (writeEntry fs e out).1.files =
      (resolveComps [] out, e.content) ::
        fs.files.filter (fun r => !(r.1 == resolveComps [] out)) := by
  by_cases hdE : isDirEntry e = true
  · left
    rw [writeEntry_dir fs e out hdE]
    rcases h1 : createDirAllLit fs out with ⟨fs1, b⟩
    have hm : fs1.files = fs.files := by
      have h2 := (createDirAllAux_writes out.length out fs).1
      unfold createDirAllLit at h1
      rw [h1] at h2
      exact h2
    cases b with
    | false => exact hm
    | true => exact hm
  · have hdF : isDirEntry e = false := by
      rw [Bool.eq_false_iff]
      exact hdE
    rw [writeEntry_file fs e out hdF]
    rcases h1 : createDirAllLit fs out.dropLast with ⟨fs1, b⟩
    have hm : fs1.files = fs.files := by
      have h2 := (createDirAllAux_writes out.dropLast.length out.dropLast fs).1
      unfold createDirAllLit at h1
      rw [h1] at h2
      exact h2
    cases b with
    | false => exact .inl hm
    | true =>
      dsimp only
      rcases h2 : createFileLit fs1 e.content [] out with - | fs2
      · exact .inl hm
      · right
        dsimp only
        obtain ⟨-, hfiles⟩ := createFileLit_eq out [] h2
        rw [hfiles, hm]

/-- Directories after the write phase: the old ones plus resolutions of
prefixes of the literal output path. -/
lemma writeEntry_dirs_sub (fs : FS) (e : EntryData) (out : List PathComp) :
    ∀ d ∈ (writeEntry fs e out).1.dirs,
      d ∈ fs.dirs ∨ ∃ L, L <+: out ∧ d = resolveComps [] L := by
  intro d hd
  by_cases hdE : isDirEntry e = true
  · rw [writeEntry_dir fs e out hdE] at hd
    rcases h1 : createDirAllLit fs out with ⟨fs1, b⟩
    rw [h1] at hd
    have hm : d ∈ fs1.dirs := by
      cases b with
      | false => exact hd
      | true => exact hd
    have h2 := (createDirAllAux_writes out.length out fs).2
    unfold createDirAllLit at h1
    rw [h1] at h2
    exact h2 d hm
  · have hdF : isDirEntry e = false := by
      rw [Bool.eq_false_iff]
      exact hdE
    rw [writeEntry_file fs e out hdF] at hd
    rcases h1 : createDirAllLit fs out.dropLast with ⟨fs1, b⟩
    rw [h1] at hd
    have hm : d ∈ fs1.dirs := by
      cases b with
      | false => exact hd
      | true =>
        dsimp only at hd
        rcases h2 : createFileLit fs1 e.content [] out with - | fs2
        · rw [h2] at hd
          exact hd
        · rw [h2] at hd
          dsimp only at hd
          obtain ⟨hdirs, -⟩ := createFileLit_eq out [] h2
          rw [hdirs] at hd
          exact hd
    have h2 := (createDirAllAux_writes out.dropLast.length out.dropLast fs).2
    unfold createDirAllLit at h1
    rw [h1] at h2
    rcases h2 d hm with h3 | ⟨L, hL, hres⟩
    · exact .inl h3
    · exact .inr ⟨L, hL.trans ( List.dropLast_prefix _), hres⟩

lemma unzipStep_dirs_mono (dir : List String) (force debug : Bool) (fs : FS)
    (e : EntryData) :
    ∀ d ∈ fs.dirs, d ∈ (unzipStep dir force debug fs e).1.dirs := by
  intro d hd
  rcases hout : enclosedName e.raw_name with - | comps
  · rw [unzipStep_skip dir force debug fs hout]
    exact hd
  · rw [unzipStep_eq_of_out dir force debug fs hout]
    by_cases hc : (statLit fs [] (litPath dir comps) && !force) = true
    · rw [if_pos hc]
      exact hd
    · rw [if_neg hc]
      exact writeEntry_dirs_mono fs e _ d hd

lemma unzipStep_file_isSome_mono (dir : List String) (force debug : Bool) (fs : FS)
    (e : EntryData) :
    ∀ q, (fileLookup fs q).isSome = true →
      (fileLookup (unzipStep dir force debug fs e).1 q).isSome = true := by
  intro q hq
  rcases hout : enclosedName e.raw_name with - | comps
  · rw [unzipStep_skip dir force debug fs hout]
    exact hq
  · rw [unzipStep_eq_of_out dir force debug fs hout]
    by_cases hc : (statLit fs [] (litPath dir comps) && !force) = true
    · rw [if_pos hc]
      exact hq
    · rw [if_neg hc]
      rcases writeEntry_files_cases fs e (litPath dir comps) with h | h
      · rw [fileLookup_congr h]
        exact hq
      · rw [fileLookup_insert h q]
        by_cases hqp : q = resolveComps [] (litPath dir comps)
        · rw [if_pos hqp]
          rfl
        · rw [if_neg hqp]
          exact hq

lemma unzipStep_writes (dir : List String) (force debug : Bool) (fs : FS) (e : EntryData)
    (hdir : ∀ q, q <+: dir → q ∈ fs.dirs) :
    (∀ r ∈ (unzipStep dir force debug fs e).1.files, r ∈ fs.files ∨ dir <+: r.1) ∧
    (∀ d ∈ (unzipStep dir force debug fs e).1.dirs, d ∈ fs.dirs ∨ dir <+: d) := by
  rcases hout : enclosedName e.raw_name with - | comps
  · rw [unzipStep_skip dir force debug fs hout]
    exact ⟨fun r hr => .inl hr, fun d hd => .inl hd⟩
  · rw [unzipStep_eq_of_out dir force debug fs hout]
    by_cases hc : (statLit fs [] (litPath dir comps) && !force) = true
    · rw [if_pos hc]
      exact ⟨fun r hr => .inl hr, fun d hd => .inl hd⟩
    · rw [if_neg hc]
      have hcd := enclosedName_checkDepth hout
      constructor
      · intro r hr
        rcases writeEntry_files_cases fs e (litPath dir comps) with h | h
        · rw [h] at hr
          exact .inl hr
        · rw [h] at hr
          rcases List.mem_cons.mp hr with h2 | h2
          · right
            rw [h2]
            exact litPath_resolve_extends hcd
          · exact .inl (List.mem_of_mem_filter h2)
      · intro d hd
        rcases writeEntry_dirs_sub fs e (litPath dir comps) d hd with h | ⟨L, hL, hres⟩
        · exact .inl h
        · rcases litPrefix_resolve hcd hL with h2 | h2
          · left
            rw [hres]
            exact hdir _ h2
          · right
            rw [hres]
            exact h2

lemma unzipStep_debug_eq (dir : List String) (force : Bool) (fs : FS) (e : EntryData) :
    (unzipStep dir force true fs e).1 = (unzipStep dir force false fs e).1 ∧
    (unzipStep dir force true fs e).2.2 = (unzipStep dir force false fs e).2.2 := by
  rcases hout : enclosedName e.raw_name with - | comps
  · rw [unzipStep_skip dir force true fs hout, unzipStep_skip dir force false fs hout]
    exact ⟨rfl, rfl⟩
  · rw [unzipStep_eq_of_out dir force true fs hout,
      unzipStep_eq_of_out dir force false fs hout]
    by_cases hc : (statLit fs [] (litPath dir comps) && !force) = true
    · rw [if_pos hc, if_pos hc]
      exact ⟨rfl, rfl⟩
    · rw [if_neg hc, if_neg hc]
      exact ⟨rfl, rfl⟩

lemma unzipStep_force_err (dir : List String) (debug : Bool) (fs : FS) (e : EntryData) :
    ∀ p, (unzipStep dir true debug fs e).2.2 ≠ some (.alreadyExists p) := by
  intro p
  rcases hout : enclosedName e.raw_name with - | comps
  · rw [unzipStep_skip dir true debug fs hout]
    exact fun h => Option.noConfusion h
  · rw [unzipStep_eq_of_out dir true debug fs hout]
    rw [if_neg (by simp)]
    exact writeEntry_err_cases fs e _ p

/-- A step that aborts with the already-exists error wrote nothing. -/
lemma unzipStep_alreadyExists_inv {dir : List String} {force debug : Bool} {fs fs1 : FS}
    {e : EntryData} {lg : List (List PathComp)} {p : List PathComp}
    (h : unzipStep dir force debug fs e = (fs1, lg, some (.alreadyExists p))) :
    fs1 = fs := by
  rcases hout : enclosedName e.raw_name with - | comps
  · rw [unzipStep_skip dir force debug fs hout] at h
    injection h with h1 h2
    injection h2 with h3 h4
    exact Option.noConfusion h4
  · rw [unzipStep_eq_of_out dir force debug fs hout] at h
    by_cases hc : (statLit fs [] (litPath dir comps) && !force) = true
    · rw [if_pos hc] at h
      injection h with h1 h2
      exact h1.symm
    · rw [if_neg hc] at h
      injection h with h1 h2
      injection h2 with h3 h4
      exact absurd h4 (writeEntry_err_cases fs e (litPath dir comps) p)

lemma tame_file_plain {e : EntryData} {comps : List PathComp}
    (htame : tameEntry (some e) = true) (hdE : isDirEntry e = false)
    (hout : enclosedName e.raw_name = some comps) :
    ∃ ns, asNormals comps = some ns := by
  have h2 : (isDirEntry e ||
      (match enclosedName e.raw_name with
       | some comps => (asNormals comps).isSome
       | none => true)) = true := htame
  rw [hdE, hout] at h2
  dsimp only at h2
  simp only [Bool.false_or] at h2
  exact Option.isSome_iff_exists.mp h2

lemma wfFS_chain {fs : FS} (h : wfFS fs) :
    ∀ r ∈ fs.files, ∀ q, q <+: r.1 → q ≠ [] → q ≠ r.1 → q ∈ fs.dirs := by
  intro r hr q hq h1 h2
  rcases h r hr q ((List.mem_inits _ _).mpr hq) with h3 | h3 | h3
  · exact absurd h3 h1
  · exact absurd h3 h2
  · exact h3

lemma wfFS_intro {fs : FS}
    (h : ∀ r ∈ fs.files, ∀ q, q <+: r.1 → q ≠ [] → q ≠ r.1 → q ∈ fs.dirs) :
    wfFS fs := by
  intro r hr q hq
  by_cases h1 : q = []
  · exact .inl h1
  by_cases h2 : q = r.1
  · exact .inr (.inl h2)
  · exact .inr (.inr (h r hr q ((List.mem_inits _ _).mp hq) h1 h2))

/-- On a well-formed filesystem, a no-force step on a tame entry preserves
the content of every existing file and well-formedness. -/
lemma unzipStep_tame (dir : List String) (debug : Bool) (fs : FS) (e : EntryData)
    (hwf : wfFS fs) (htame : tameEntry (some e) = true) :
    (∀ q c, fileLookup fs q = some c →
      fileLookup (unzipStep dir false debug fs e).1 q = some c) ∧
    wfFS (unzipStep dir false debug fs e).1 := by
  rcases hout : enclosedName e.raw_name with - | comps
  · rw [unzipStep_skip dir false debug fs hout]
    exact ⟨fun q c h => h, hwf⟩
  · rw [unzipStep_eq_of_out dir false debug fs hout]
    by_cases hc : (statLit fs [] (litPath dir comps) && !false) = true
    · rw [if_pos hc]
      exact ⟨fun q c h => h, hwf⟩
    · rw [if_neg hc]
      by_cases hdE : isDirEntry e = true
      · -- directory entry: only directories change
        have hfiles : (writeEntry fs e (litPath dir comps)).1.files = fs.files := by
          rw [writeEntry_dir fs e (litPath dir comps) hdE]
          rcases h1 : createDirAllLit fs (litPath dir comps) with ⟨fs1, b⟩
          have hm : fs1.files = fs.files := by
            have h2 := (createDirAllAux_writes (litPath dir comps).length
              (litPath dir comps) fs).1
            unfold createDirAllLit at h1
            rw [h1] at h2
            exact h2
          cases b with
          | false => exact hm
          | true => exact hm
        refine ⟨fun q c h => by rw [fileLookup_congr hfiles]; exact h, wfFS_intro ?_⟩
        intro r hr q hq h1 h2
        rw [hfiles] at hr
        exact writeEntry_dirs_mono fs e _ q (wfFS_chain hwf r hr q hq h1 h2)
      · have hdF : isDirEntry e = false := by
          rw [Bool.eq_false_iff]
          exact hdE
        obtain ⟨ns, hns⟩ := tame_file_plain htame hdF hout
        have hcomps : comps = ns.map PathComp.normal := asNormals_inv hns
        have hlit : litPath dir comps = ((dir ++ ns).map PathComp.normal) := by
          rw [hcomps, litPath_normals]
        by_cases hp0 : dir ++ ns = []
        · -- empty output path: the file creation fails, nothing changes
          have hlit0 : litPath dir comps = [] := by
            rw [hlit, hp0]
            rfl
          rw [writeEntry_file fs e (litPath dir comps) hdF, hlit0]
          have hca : createDirAllLit fs ([] : List PathComp).dropLast = (fs, true) := rfl
          rw [hca]
          dsimp only
          have hcf : createFileLit fs e.content [] ([] : List PathComp) = none := rfl
          rw [hcf]
          dsimp only
          exact ⟨fun q c h => h, hwf⟩
        · by_cases hfile : (fileLookup fs (dir ++ ns)).isSome = true
          · -- the target is an existing file: the literal check would have fired
            exfalso
            apply hc
            obtain ⟨c0, hc0⟩ := Option.isSome_iff_exists.mp hfile
            have hmemf := fileLookup_mem hc0
            have hst : statLit fs [] ((dir ++ ns).map PathComp.normal) = true := by
              refine statLit_normals_true fs (dir ++ ns) [] hp0 ?_ ?_
              · intro q hq h1 h2
                rw [List.nil_append]
                exact wfFS_chain hwf _ hmemf q hq h1 h2
              · rw [List.nil_append]
                unfold pathExists
                rw [hc0]
                rfl
            rw [hlit, hst]
            rfl
          · have hnof : fileLookup fs (dir ++ ns) = none :=
              Option.not_isSome_iff_eq_none.mp hfile
            rw [writeEntry_file fs e (litPath dir comps) hdF]
            rcases h1 : createDirAllLit fs (litPath dir comps).dropLast with ⟨fs1, b⟩
            have hf1 : fs1.files = fs.files := by
              have h2 := (createDirAllAux_writes (litPath dir comps).dropLast.length
                (litPath dir comps).dropLast fs).1
              unfold createDirAllLit at h1
              rw [h1] at h2
              exact h2
            have hd1 : ∀ d ∈ fs.dirs, d ∈ fs1.dirs := by
              intro d hd
              have h2 := createDirAllAux_mono (litPath dir comps).dropLast.length
                (litPath dir comps).dropLast fs d hd
              unfold createDirAllLit at h1
              rw [h1] at h2
              exact h2
            have hwf1 : wfFS fs1 := by
              refine wfFS_intro ?_
              intro r hr q hq hq1 hq2
              rw [hf1] at hr
              exact hd1 q (wfFS_chain hwf r hr q hq hq1 hq2)
            cases b with
            | false =>
              refine ⟨fun q c h => ?_, hwf1⟩
              rw [fileLookup_congr hf1]
              exact h
            | true =>
              dsimp only
              rcases h2 : createFileLit fs1 e.content [] (litPath dir comps) with - | fs2
              · refine ⟨fun q c h => ?_, hwf1⟩
                rw [fileLookup_congr hf1]
                exact h
              · dsimp only
                obtain ⟨hdirs2, hfiles2⟩ := createFileLit_eq (litPath dir comps) [] h2
                have hres : resolveComps [] (litPath dir comps) = dir ++ ns := by
                  rw [hlit, resolve_normals_nil]
                rw [hres] at hfiles2
                constructor
                · intro q c h
                  have hq1 : fileLookup fs1 q = some c := by
                    rw [fileLookup_congr hf1]
                    exact h
                  have hqp : q ≠ dir ++ ns := by
                    intro hqq
                    rw [hqq, fileLookup_congr hf1, hnof] at hq1
                    exact Option.noConfusion hq1
                  rw [fileLookup_insert hfiles2 q, if_neg hqp]
                  exact hq1
                · refine wfFS_intro ?_
                  intro r hr q hq hq1 hq2
                  rw [hfiles2] at hr
                  rw [hdirs2]
                  rcases List.mem_cons.mp hr with h3 | h3
                  · -- the fresh file: its ancestors were walked as directories
                    have hq' : q <+: dir ++ ns := by
                      rw [h3] at hq
                      exact hq
                    have hq2' : q ≠ dir ++ ns := by
                      intro hqq
                      rw [h3] at hq2
                      exact hq2 (by rw [hqq])
                    have h4 := createFileLit_normals_chain fs1 e.content (dir ++ ns) []
                      (by rw [← hlit]; exact h2) q hq' hq1 hq2'
                    simpa using h4
                  · have hr1 : r ∈ fs1.files := List.mem_of_mem_filter h3
                    rw [hf1] at hr1
                    exact hd1 q (wfFS_chain hwf r hr1 q hq hq1 hq2)

/-! ## Extraction loop lemmas -/

lemma unzip_file_dirs_mono (dir : List String) (force debug : Bool) :
    ∀ (entries : List (Option EntryData)) (fs : FS),
    ∀ d ∈ fs.dirs, d ∈ (unzip_file dir force debug entries fs).fs.dirs := by
  intro entries
  induction entries with
  | nil =>
    intro fs d hd
    exact hd
  | cons oe rest ih =>
    intro fs d hd
    cases oe with
    | none =>
      rw [unzip_file_cons_none]
      exact ih fs d hd
    | some e =>
      rcases hstep : unzipStep dir force debug fs e with ⟨fs1, lg, err⟩
      have hd1 : d ∈ fs1.dirs := by
        have h2 := unzipStep_dirs_mono dir force debug fs e d hd
        rw [hstep] at h2
        exact h2
      cases err with
      | some err0 =>
        rw [unzip_file_cons_err hstep rest]
        exact hd1
      | none =>
        rw [unzip_file_cons_ok hstep rest]
        exact ih fs1 d hd1

lemma unzip_file_file_isSome_mono (dir : List String) (force debug : Bool) :
    ∀ (entries : List (Option EntryData)) (fs : FS) (q : List String),
    (fileLookup fs q).isSome = true →
    (fileLookup (unzip_file dir force debug entries fs).fs q).isSome = true := by
  intro entries
  induction entries with
  | nil =>
    intro fs q h
    exact h
  | cons oe rest ih =>
    intro fs q h
    cases oe with
    | none =>
      rw [unzip_file_cons_none]
      exact ih fs q h
    | some e =>
      rcases hstep : unzipStep dir force debug fs e with ⟨fs1, lg, err⟩
      have h1 : (fileLookup fs1 q).isSome = true := by
        have h2 := unzipStep_file_isSome_mono dir force debug fs e q h
        rw [hstep] at h2
        exact h2
      cases err with
      | some err0 =>
        rw [unzip_file_cons_err hstep rest]
        exact h1
      | none =>
        rw [unzip_file_cons_ok hstep rest]
        exact ih fs1 q h1

lemma unzip_file_writes (dir : List String) (force debug : Bool) :
    ∀ (entries : List (Option EntryData)) (fs : FS),
    (∀ q, q <+: dir → q ∈ fs.dirs) →
    (∀ r ∈ (unzip_file dir force debug entries fs).fs.files,
      r ∈ fs.files ∨ dir <+: r.1) ∧
    (∀ d ∈ (unzip_file dir force debug entries fs).fs.dirs,
      d ∈ fs.dirs ∨ dir <+: d) := by
  intro entries
  induction entries with
  | nil =>
    intro fs hdir
    exact ⟨fun r hr => .inl hr, fun d hd => .inl hd⟩
  | cons oe rest ih =>
    intro fs hdir
    cases oe with
    | none =>
      rw [unzip_file_cons_none]
      exact ih fs hdir
    | some e =>
      rcases hstep : unzipStep dir force debug fs e with ⟨fs1, lg, err⟩
      have hstepw := unzipStep_writes dir force debug fs e hdir
      rw [hstep] at hstepw
      have hsf : ∀ r ∈ fs1.files, r ∈ fs.files ∨ dir <+: r.1 := hstepw.1
      have hsd : ∀ d ∈ fs1.dirs, d ∈ fs.dirs ∨ dir <+: d := hstepw.2
      cases err with
      | some err0 =>
        rw [unzip_file_cons_err hstep rest]
        exact ⟨hsf, hsd⟩
      | none =>
        rw [unzip_file_cons_ok hstep rest]
        have hdir1 : ∀ q, q <+: dir → q ∈ fs1.dirs := by
          intro q hq
          have h2 := unzipStep_dirs_mono dir force debug fs e q (hdir q hq)
          rw [hstep] at h2
          exact h2
        obtain ⟨hf, hd⟩ := ih fs1 hdir1
        constructor
        · intro r hr
          rcases hf r hr with h2 | h2
          · exact hsf r h2
          · exact .inr h2
        · intro d hd2
          rcases hd d hd2 with h2 | h2
          · exact hsd d h2
          · exact .inr h2

lemma unzip_file_debug_eq (dir : List String) (force : Bool) :
    ∀ (entries : List (Option EntryData)) (fs : FS),
    (unzip_file dir force true entries fs).fs =
      (unzip_file dir force false entries fs).fs ∧
    (unzip_file dir force true entries fs).err =
      (unzip_file dir force false entries fs).err := by
  intro entries
  induction entries with
  | nil =>
    intro fs
    exact ⟨rfl, rfl⟩
  | cons oe rest ih =>
    intro fs
    cases oe with
    | none =>
      rw [unzip_file_cons_none, unzip_file_cons_none]
      exact ih fs
    | some e =>
      obtain ⟨hfs, herr⟩ := unzipStep_debug_eq dir force fs e
      rcases hT : unzipStep dir force true fs e with ⟨fsT, lgT, errT⟩
      rcases hF : unzipStep dir force false fs e with ⟨fsF, lgF, errF⟩
      rw [hT, hF] at hfs herr
      have hfs2 : fsT = fsF := hfs
      have herr2 : errT = errF := herr
      subst hfs2
      subst herr2
      cases errT with
      | some err0 =>
        rw [unzip_file_cons_err hT rest, unzip_file_cons_err hF rest]
        exact ⟨rfl, rfl⟩
      | none =>
        rw [unzip_file_cons_ok hT rest, unzip_file_cons_ok hF rest]
        exact ih fsT

lemma unzip_file_force_no_conflict (dir : List String) (debug : Bool) :
    ∀ (entries : List (Option EntryData)) (fs : FS) (p : List PathComp),
    (unzip_file dir true debug entries fs).err ≠ some (.alreadyExists p) := by
  intro entries
  induction entries with
  | nil =>
    intro fs p h
    exact Option.noConfusion h
  | cons oe rest ih =>
    intro fs p
    cases oe with
    | none =>
      rw [unzip_file_cons_none]
      exact ih fs p
    | some e =>
      rcases hstep : unzipStep dir true debug fs e with ⟨fs1, lg, err⟩
      cases err with
      | some err0 =>
        rw [unzip_file_cons_err hstep rest]
        intro h
        have h' : some err0 = some (ExtractError.alreadyExists p) := h
        injection h' with h2
        have h3 := unzipStep_force_err dir debug fs e p
        rw [hstep] at h3
        exact h3 (by rw [h2])
      | none =>
        rw [unzip_file_cons_ok hstep rest]
        exact ih fs1 p

lemma unzip_file_tame_preserve (dir : List String) (debug : Bool) :
    ∀ (entries : List (Option EntryData)) (fs : FS),
    wfFS fs → (∀ oe ∈ entries, tameEntry oe = true) →
    ∀ q c, fileLookup fs q = some c →
      fileLookup (unzip_file dir false debug entries fs).fs q = some c := by
  intro entries
  induction entries with
  | nil =>
    intro fs _ _ q c h
    exact h
  | cons oe rest ih =>
    intro fs hwf htame q c h
    cases oe with
    | none =>
      rw [unzip_file_cons_none]
      exact ih fs hwf (fun oe hoe => htame oe (List.mem_cons_of_mem _ hoe)) q c h
    | some e =>
      obtain ⟨hpres, hwf1⟩ := unzipStep_tame dir debug fs e hwf
        (htame (some e) (List.mem_cons_self _ _))
      rcases hstep : unzipStep dir false debug fs e with ⟨fs1, lg, err⟩
      rw [hstep] at hpres hwf1
      cases err with
      | some err0 =>
        rw [unzip_file_cons_err hstep rest]
        exact hpres q c h
      | none =>
        rw [unzip_file_cons_ok hstep rest]
        exact ih fs1 hwf1 (fun oe hoe => htame oe (List.mem_cons_of_mem _ hoe)) q c
          (hpres q c h)

lemma unzip_file_abort_decomp (dir : List String) (debug : Bool) :
    ∀ (entries : List (Option EntryData)) (fs : FS) (p : List PathComp),
    (unzip_file dir false debug entries fs).err = some (.alreadyExists p) →
    ∃ pre e post, entries = pre ++ some e :: post ∧
      (unzip_file dir false debug pre fs).err = none ∧
      (unzip_file dir false debug entries fs).fs =
        (unzip_file dir false debug pre fs).fs := by
  intro entries
  induction entries with
  | nil =>
    intro fs p h
    exact Option.noConfusion h
  | cons oe rest ih =>
    intro fs p h
    cases oe with
    | none =>
      rw [unzip_file_cons_none] at h
      obtain ⟨pre, e, post, h1, h2, h3⟩ := ih fs p h
      refine ⟨none :: pre, e, post, by rw [h1]; rfl, ?_, ?_⟩
      · rw [unzip_file_cons_none]
        exact h2
      · rw [unzip_file_cons_none dir false debug rest fs,
          unzip_file_cons_none dir false debug pre fs]
        exact h3
    | some e =>
      rcases hstep : unzipStep dir false debug fs e with ⟨fs1, lg, err⟩
      cases err with
      | some err0 =>
        rw [unzip_file_cons_err hstep rest] at h
        have h' : some err0 = some (ExtractError.alreadyExists p) := h
        injection h' with h2
        refine ⟨[], e, rest, rfl, rfl, ?_⟩
        rw [unzip_file_cons_err hstep rest]
        show fs1 = fs
        rw [h2] at hstep
        exact unzipStep_alreadyExists_inv hstep
      | none =>
        rw [unzip_file_cons_ok hstep rest] at h
        have h' : (unzip_file dir false debug rest fs1).err =
            some (.alreadyExists p) := h
        obtain ⟨pre, e', post, h1, h2, h3⟩ := ih fs1 p h'
        refine ⟨some e :: pre, e', post, by rw [h1]; rfl, ?_, ?_⟩
        · rw [unzip_file_cons_ok hstep pre]
          exact h2
        · rw [unzip_file_cons_ok hstep rest, unzip_file_cons_ok hstep pre]
          exact h3

lemma list_files_eq : ∀ (entries : List (Option EntryData)),
    list_files entries = entries.reduceOption.map rowOf := by
  intro entries
  induction entries with
  | nil => rfl
  | cons oe rest ih =>
    cases oe with
    | none =>
      have h : list_files (none :: rest) = list_files rest := rfl
      rw [h, List.reduceOption_cons_of_none]
      exact ih
    | some e =>
      have h : list_files (some e :: rest) = rowOf e :: list_files rest := rfl
      rw [h, List.reduceOption_cons_of_some, List.map_cons, ih]

/-! ## Clean extraction of plain file entries -/

lemma plainFileEntry_inv {e : EntryData} (h : plainFileEntry e = true) :
    isDirEntry e = false ∧ ∃ comps ns, enclosedName e.raw_name = some comps ∧
      asNormals comps = some ns ∧ ns ≠ [] := by
  have h2 : ((!isDirEntry e) &&
      (match enclosedName e.raw_name with
       | some comps => !comps.isEmpty && (asNormals comps).isSome
       | none => false)) = true := h
  rw [Bool.and_eq_true] at h2
  obtain ⟨h3, h4⟩ := h2
  rw [Bool.not_eq_true'] at h3
  refine ⟨h3, ?_⟩
  rcases hout : enclosedName e.raw_name with - | comps
  · rw [hout] at h4
    dsimp only at h4
    exact Bool.noConfusion h4
  · rw [hout] at h4
    dsimp only at h4
    rw [Bool.and_eq_true] at h4
    obtain ⟨h5, h6⟩ := h4
    obtain ⟨ns, hns⟩ := Option.isSome_iff_exists.mp h6
    refine ⟨comps, ns, rfl, hns, ?_⟩
    intro hn
    have hcomps := asNormals_inv hns
    rw [hn] at hcomps
    rw [hcomps] at h5
    exact Bool.noConfusion h5

lemma plainOutOf_eq {e : EntryData} {comps : List PathComp} {ns : List String}
    (hout : enclosedName e.raw_name = some comps) (hns : asNormals comps = some ns)
    (dir : List String) : plainOutOf dir e = some (dir ++ ns) := by
  unfold plainOutOf
  rw [hout]
  dsimp only
  rw [hns]
  rfl

lemma sepOutB_some {p q : List String} (h : sepOutB (some p) (some q) = true) :
    ¬ p <+: q ∧ ¬ q <+: p := by
  have h2 : (!(p.isPrefixOf q) && !(q.isPrefixOf p)) = true := h
  rw [Bool.and_eq_true, Bool.not_eq_true', Bool.not_eq_true'] at h2
  constructor
  · intro hp
    rw [← List.isPrefixOf_iff_prefix] at hp
    rw [h2.1] at hp
    exact Bool.noConfusion hp
  · intro hp
    rw [← List.isPrefixOf_iff_prefix] at hp
    rw [h2.2] at hp
    exact Bool.noConfusion hp

/-- The invariant-threading loop behind the clean-roundtrip claim:
extracting plain, pairwise non-conflicting file entries into a prepared
target directory succeeds and writes each entry's bytes at its output
path. -/
lemma unzip_file_clean (dir : List String) (debug : Bool) (fs0 : FS) :
    ∀ (es : List EntryData) (done : List EntryData) (fs : FS),
    (∀ q, q <+: dir → q ∈ fs.dirs ∧ fileLookup fs q = none) →
    (∀ e ∈ done, ∀ p, plainOutOf dir e = some p → fileLookup fs p = some e.content) →
    (∀ r ∈ fs.files, r ∈ fs0.files ∨ ∃ e ∈ done, plainOutOf dir e = some r.1) →
    (∀ d ∈ fs.dirs, d ∈ fs0.dirs ∨
      ∃ e ∈ done, ∃ p, plainOutOf dir e = some p ∧ d <+: p ∧ d ≠ p) →
    (∀ r ∈ fs0.files, ¬ dir <+: r.1) →
    (∀ e ∈ es, plainFileEntry e = true) →
    (∀ e ∈ es, ∀ p, plainOutOf dir e = some p → p ∉ fs0.dirs) →
    (∀ e ∈ es, ∀ d ∈ done, sepOutB (plainOutOf dir d) (plainOutOf dir e) = true) →
    List.Pairwise (fun a b => sepOutB (plainOutOf dir a) (plainOutOf dir b) = true) es →
    (unzip_file dir false debug (es.map some) fs).err = none ∧
    (∀ e ∈ done ++ es, ∀ p, plainOutOf dir e = some p →
      fileLookup (unzip_file dir false debug (es.map some) fs).fs p = some e.content) ∧
    (∀ r ∈ (unzip_file dir false debug (es.map some) fs).fs.files,
      r ∈ fs0.files ∨ ∃ e ∈ done ++ es, plainOutOf dir e = some r.1) ∧
    (∀ d ∈ (unzip_file dir false debug (es.map some) fs).fs.dirs, d ∈ fs0.dirs ∨
      ∃ e ∈ done ++ es, ∃ p, plainOutOf dir e = some p ∧ d <+: p ∧ d ≠ p) := by
  intro es
  induction es with
  | nil =>
    intro done fs hi1 hi2a hi2b hi3 h20 hplain hnd0 hsepdone hpair
    rw [List.append_nil]
    exact ⟨rfl, hi2a, hi2b, hi3⟩
  | cons e es ihe =>
    intro done fs hi1 hi2a hi2b hi3 h20 hplain hnd0 hsepdone hpair
    obtain ⟨hdF, comps, ns, hout, hns, hnsne⟩ := plainFileEntry_inv
      (hplain e (List.mem_cons_self _ _))
    have hcomps : comps = ns.map PathComp.normal := asNormals_inv hns
    have hpout : plainOutOf dir e = some (dir ++ ns) := plainOutOf_eq hout hns dir
    have hlit : litPath dir comps = (dir ++ ns).map PathComp.normal := by
      rw [hcomps, litPath_normals]
    have hpne : dir ++ ns ≠ [] := by
      intro hh
      exact hnsne (List.append_eq_nil.mp hh).2
    have hnofile : ∀ q, q <+: dir ++ ns → fileLookup fs q = none := by
      intro q hq
      rcases List.prefix_or_prefix_of_prefix hq (List.prefix_append dir ns) with h | h
      · exact (hi1 q h).2
      · rcases hlk : fileLookup fs q with - | c0
        · rfl
        · exfalso
          have hmem := fileLookup_mem hlk
          rcases hi2b _ hmem with h3 | ⟨e', he', hpe'⟩
          · exact h20 _ h3 h
          · have hsep := hsepdone e (List.mem_cons_self _ _) e' he'
            rw [hpe', hpout] at hsep
            exact (sepOutB_some hsep).1 hq
    have hnodir : dir ++ ns ∉ fs.dirs := by
      intro hmem
      rcases hi3 _ hmem with h3 | ⟨e', he', p', hp', hpre, hneq⟩
      · exact hnd0 e (List.mem_cons_self _ _) _ hpout h3
      · have hsep := hsepdone e (List.mem_cons_self _ _) e' he'
        rw [hp', hpout] at hsep
        exact (sepOutB_some hsep).2 hpre
    have hpe : pathExists fs (dir ++ ns) = false :=
      pathExists_false (hnofile _ (List.prefix_refl _)) hnodir
    have hstat : statLit fs [] ((dir ++ ns).map PathComp.normal) = false :=
      statLit_normals_false fs (dir ++ ns) [] hpne (by rw [List.nil_append]; exact hpe)
    obtain ⟨fs1, hca, hf1, hd1⟩ := @createDirAllLit_normals ((dir ++ ns).dropLast) fs
      (fun q hq => hnofile q (hq.trans ( List.dropLast_prefix _)))
    have hch1 : ∀ q, q <+: dir ++ ns → q ≠ [] → q ≠ dir ++ ns → ([] ++ q) ∈ fs1.dirs := by
      intro q hq h1 h2
      rw [List.nil_append]
      exact (hd1 q).mpr (.inr ⟨prefix_dropLast_of_proper hq h2, h1⟩)
    have htgt1 : ([] ++ (dir ++ ns)) ∉ fs1.dirs := by
      rw [List.nil_append]
      intro hmem
      rcases (hd1 _).mp hmem with h3 | ⟨h4, -⟩
      · exact hnodir h3
      · exact not_prefix_dropLast_self hpne h4
    have hcf := createFileLit_normals fs1 e.content (dir ++ ns) [] hpne hch1 htgt1
    simp only [List.nil_append] at hcf
    have hstep : unzipStep dir false debug fs e =
        (FS.mk ((dir ++ ns, e.content) ::
            fs1.files.filter (fun r => !(r.1 == dir ++ ns))) fs1.dirs,
          stepLog debug (litPath dir comps), none) := by
      rw [unzipStep_eq_of_out dir false debug fs hout]
      have hneg : ¬ (statLit fs [] (litPath dir comps) && !false) = true := by
        intro hcontra
        rw [hlit, hstat] at hcontra
        exact Bool.noConfusion hcontra
      rw [if_neg hneg]
      have hca2 : createDirAllLit fs (litPath dir comps).dropLast = (fs1, true) := by
        rw [hlit, dropLast_map_normal]
        exact hca
      have hcf2 : createFileLit fs1 e.content [] (litPath dir comps) =
          some (FS.mk ((dir ++ ns, e.content) ::
            fs1.files.filter (fun r => !(r.1 == dir ++ ns))) fs1.dirs) := by
        rw [hlit]
        exact hcf
      rw [writeEntry_file_ok hdF hca2 hcf2]
    have hfs2files : (FS.mk ((dir ++ ns, e.content) ::
        fs1.files.filter (fun r => !(r.1 == dir ++ ns))) fs1.dirs).files =
        (dir ++ ns, e.content) :: fs1.files.filter (fun r => !(r.1 == dir ++ ns)) := rfl
    have hlk2 : ∀ q, fileLookup (FS.mk ((dir ++ ns, e.content) ::
        fs1.files.filter (fun r => !(r.1 == dir ++ ns))) fs1.dirs) q =
        if q = dir ++ ns then some e.content else fileLookup fs q := by
      intro q
      rw [fileLookup_insert hfs2files q]
      by_cases hq : q = dir ++ ns
      · rw [if_pos hq, if_pos hq]
      · rw [if_neg hq, if_neg hq, fileLookup_congr hf1]
    have hlen_ne : ∀ q, q <+: dir → q ≠ dir ++ ns := by
      intro q hq hqq
      have h1 := hq.length_le
      have h2 : (dir ++ ns).length = dir.length + ns.length := List.length_append dir ns
      have h3 : 0 < ns.length := List.length_pos_of_ne_nil hnsne
      rw [hqq, h2] at h1
      omega
    -- invariant for the recursive call on `es` from the post-step filesystem
    obtain ⟨herr, hc2a, hc2b, hc3⟩ := ihe (done ++ [e])
      (FS.mk ((dir ++ ns, e.content) ::
        fs1.files.filter (fun r => !(r.1 == dir ++ ns))) fs1.dirs)
      (by
        intro q hq
        constructor
        · exact (hd1 q).mpr (.inl (hi1 q hq).1)
        · rw [hlk2 q, if_neg (hlen_ne q hq)]
          exact (hi1 q hq).2)
      (by
        intro e' he' p' hp'
        rcases List.mem_append.mp he' with h3 | h3
        · have hsep := hsepdone e (List.mem_cons_self _ _) e' h3
          rw [hp', hpout] at hsep
          have hne : p' ≠ dir ++ ns := fun hh =>
            (sepOutB_some hsep).1 (by rw [hh])
          rw [hlk2 p', if_neg hne]
          exact hi2a e' h3 p' hp'
        · have he2 : e' = e := List.mem_singleton.mp h3
          rw [he2] at hp'
          rw [hpout] at hp'
          injection hp' with hp2
          rw [← hp2, hlk2 (dir ++ ns), if_pos rfl, he2]
        )
      (by
        intro r hr
        rw [hfs2files] at hr
        rcases List.mem_cons.mp hr with h3 | h3
        · refine .inr ⟨e, List.mem_append.mpr (.inr (List.mem_singleton.mpr rfl)), ?_⟩
          rw [h3, hpout]
        · have hr1 : r ∈ fs1.files := List.mem_of_mem_filter h3
          rw [hf1] at hr1
          rcases hi2b r hr1 with h4 | ⟨e', he', hp'⟩
          · exact .inl h4
          · exact .inr ⟨e', List.mem_append.mpr (.inl he'), hp'⟩)
      (by
        intro d hd
        have hd' : d ∈ fs1.dirs := hd
        rcases (hd1 d).mp hd' with h3 | ⟨h4, h5⟩
        · rcases hi3 d h3 with h6 | ⟨e', he', p', hp', hpre, hneq⟩
          · exact .inl h6
          · exact .inr ⟨e', List.mem_append.mpr (.inl he'), p', hp', hpre, hneq⟩
        · refine .inr ⟨e, List.mem_append.mpr (.inr (List.mem_singleton.mpr rfl)),
            dir ++ ns, hpout, h4.trans ( List.dropLast_prefix _), ?_⟩
          intro hh
          rw [hh] at h4
          exact not_prefix_dropLast_self hpne h4)
      h20
      (fun e' he' => hplain e' (List.mem_cons_of_mem _ he'))
      (fun e' he' => hnd0 e' (List.mem_cons_of_mem _ he'))
      (by
        intro e' he' d hd
        rcases List.mem_append.mp hd with h3 | h3
        · exact hsepdone e' (List.mem_cons_of_mem _ he') d h3
        · have hde : d = e := List.mem_singleton.mp h3
          rw [hde]
          exact (List.pairwise_cons.mp hpair).1 e' he')
      (List.pairwise_cons.mp hpair).2
    rw [List.map_cons]
    rw [unzip_file_cons_ok hstep (es.map some)]
    refine ⟨herr, ?_, ?_, ?_⟩
    · intro e' he' p' hp'
      refine hc2a e' ?_ p' hp'
      rcases List.mem_append.mp he' with h3 | h3
      · exact List.mem_append.mpr (.inl (List.mem_append.mpr (.inl h3)))
      · rcases List.mem_cons.mp h3 with h4 | h4
        · exact List.mem_append.mpr (.inl (List.mem_append.mpr
            (.inr (List.mem_singleton.mpr h4))))
        · exact List.mem_append.mpr (.inr h4)
    · intro r hr
      rcases hc2b r hr with h3 | ⟨e', he', hp'⟩
      · exact .inl h3
      · refine .inr ⟨e', ?_, hp'⟩
        rcases List.mem_append.mp he' with h3 | h3
        · rcases List.mem_append.mp h3 with h4 | h4
          · exact List.mem_append.mpr (.inl h4)
          · exact List.mem_append.mpr (.inr (List.mem_cons.mpr
              (.inl (List.mem_singleton.mp h4))))
        · exact List.mem_append.mpr (.inr (List.mem_cons.mpr (.inr h3)))
    · intro d hd
      rcases hc3 d hd with h3 | ⟨e', he', p', hp', hpre, hneq⟩
      · exact .inl h3
      · refine .inr ⟨e', ?_, p', hp', hpre, hneq⟩
        rcases List.mem_append.mp he' with h3 | h3
        · rcases List.mem_append.mp h3 with h4 | h4
          · exact List.mem_append.mpr (.inl h4)
          · exact List.mem_append.mpr (.inr (List.mem_cons.mpr
              (.inl (List.mem_singleton.mp h4))))
        · exact List.mem_append.mpr (.inr (List.mem_cons.mpr (.inr h3)))

/-! ## Claim theorems -/

/-- C1 (amended): for every archive, every force/verbose setting, and every
target directory whose ancestors exist as directories, extraction only ever
writes files and directories at paths extending the target base directory,
and an entry whose sanitized path resolution (`enclosed_name`) yields `none`
— an absolute name, a NUL byte, or `..` components climbing above the base —
is skipped entirely and produces no filesystem write.  (Amended from the
original claim, which also asserted that every name *containing* a
parent-traversal component resolves to `none`: in-bounds `..` components are
accepted, see the counterexample, but still never escape the base.) -/
theorem c1_path_safety (dir : List String) (force debug : Bool)
    (entries : List (Option EntryData)) (fs : FS)
    (hdir : ∀ q ∈ dir.inits, q ∈ fs.dirs) :
    ((∀ r ∈ (unzip_file dir force debug entries fs).fs.files,
        r ∈ fs.files ∨ dir <+: r.1) ∧
      (∀ d ∈ (unzip_file dir force debug entries fs).fs.dirs,
        d ∈ fs.dirs ∨ dir <+: d)) ∧
    (∀ (e : EntryData) (rest : List (Option EntryData)), enclosedName e.raw_name = none →
      unzip_file dir force debug (some e :: rest) fs =
        unzip_file dir force debug rest fs) := by
  constructor
  · exact unzip_file_writes dir force debug entries fs
      (fun q hq => hdir q ((List.mem_inits _ _).mpr hq))
  · intro e rest h
    rw [unzip_file_cons_ok (unzipStep_skip dir force debug fs h) rest, List.nil_append]

/-- C1 counterexample: the raw name `a/../b.txt` contains a parent-traversal
component, yet its sanitized resolution is `some` and extraction writes
`t/b.txt` instead of skipping the entry, refuting the claim as stated (the
write still lands inside the base directory). -/
theorem c1_counterexample :
    (enclosedName "a/../b.txt").isSome = true ∧
    fileLookup (unzip_file ["t"] false false
        [some ⟨"a/../b.txt", [5], 1, [], none⟩] ⟨[], [[], ["t"]]⟩).fs ["t", "b.txt"]
      = some [5] ∧
    unzip_file ["t"] false false [some ⟨"a/../b.txt", [5], 1, [], none⟩] ⟨[], [[], ["t"]]⟩ ≠
      unzip_file ["t"] false false [] ⟨[], [[], ["t"]]⟩ := by
  decide

/-- C1 witness: a concrete run in which an entry with an escaping `../` name
is skipped entirely. -/
theorem c1_witness :
    unzip_file ["t"] false false [some ⟨"../evil.txt", [9], 1, [], none⟩] ⟨[], [[], ["t"]]⟩ =
      unzip_file ["t"] false false [] ⟨[], [[], ["t"]]⟩ :=
  (c1_path_safety ["t"] false false [some ⟨"../evil.txt", [9], 1, [], none⟩]
      ⟨[], [[], ["t"]]⟩ (by decide)).2 ⟨"../evil.txt", [9], 1, [], none⟩ [] (by decide)

/-- The "already exists" message decomposes around the literal substring. -/
lemma errMessage_alreadyExists_contains (p : List PathComp) :
    ∃ pre post, (errMessage (.alreadyExists p)).data =
      pre ++ "already exists".data ++ post := by
  refine ⟨"File ".data ++ (pathToString p).data ++ [' '], [], ?_⟩
  show ("File " ++ pathToString p ++ " already exists").data = _
  rw [String.data_append, String.data_append]
  have hsp : (" already exists").data = ' ' :: "already exists".data := rfl
  rw [hsp]
  simp

/-- C2 (amended): without force, an entry whose literal joined output path
(`dir.join(enclosed_name)`, `..` components intact) exists according to the
path walk of `Path::exists` aborts the entire run immediately — the
filesystem is left as it was, the remaining entries are never processed —
with an error naming that literal path, a message containing "already
exists" and a label suggesting the force flag; with force the already-exists
error is never raised, and a file entry with a plain name whose ancestors
exist as directories and whose target is not a directory is (re)written with
the entry's content.  (Amended from the original claim, which keyed the
conflict check on the *resolved* output path: the program stats the literal
unnormalized path, so an entry like `a/../b` over an existing file `t/b`
with `t/a` absent bypasses the guard and silently truncates `t/b`, see the
counterexample.) -/
theorem c2_conflict_abort (dir : List String) (debug : Bool) (fs : FS) (e : EntryData)
    (rest : List (Option EntryData)) (comps : List PathComp)
    (hout : enclosedName e.raw_name = some comps) :
    (statLit fs [] (litPath dir comps) = true →
      unzip_file dir false debug (some e :: rest) fs =
        ⟨fs, stepLog debug (litPath dir comps),
          some (.alreadyExists (litPath dir comps))⟩ ∧
      (∃ pre post, (errMessage (.alreadyExists (litPath dir comps))).data =
          pre ++ "already exists".data ++ post) ∧
      errLabel (.alreadyExists (litPath dir comps)) = "Use --force/-f to overwrite") ∧
    (∀ (entries : List (Option EntryData)) (fs' : FS) (q : List PathComp),
      (unzip_file dir true debug entries fs').err ≠ some (.alreadyExists q)) ∧
    (∀ ns, asNormals comps = some ns → ns ≠ [] → isDirEntry e = false →
      (∀ q ∈ (dir ++ ns).inits, q ≠ [] → q ≠ dir ++ ns → q ∈ fs.dirs) →
      dir ++ ns ∉ fs.dirs →
      ∃ fs2 lg, unzipStep dir true debug fs e = (fs2, lg, none) ∧
        fileLookup fs2 (dir ++ ns) = some e.content) := by
  refine ⟨?_, ?_, ?_⟩
  · intro hex
    exact ⟨by rw [unzip_file_cons_err (unzipStep_abort dir debug hout hex) rest],
      errMessage_alreadyExists_contains _, rfl⟩
  · exact fun entries fs' q => unzip_file_force_no_conflict dir debug entries fs' q
  · intro ns hns hnsne hdF hch htgt
    have hcomps : comps = ns.map PathComp.normal := asNormals_inv hns
    have hlit : litPath dir comps = (dir ++ ns).map PathComp.normal := by
      rw [hcomps, litPath_normals]
    have hch' : ∀ q, q <+: dir ++ ns → q ≠ [] → q ≠ dir ++ ns → q ∈ fs.dirs :=
      fun q hq => hch q ((List.mem_inits _ _).mpr hq)
    have hpne : dir ++ ns ≠ [] := fun hh => hnsne (List.append_eq_nil.mp hh).2
    have hca : createDirAllLit fs ((dir ++ ns).dropLast.map PathComp.normal) =
        (fs, true) := by
      refine createDirAllLit_exists_dirs _ fs ?_
      intro q hq h1
      refine hch' q (hq.trans ( List.dropLast_prefix _)) h1 ?_
      intro hqq
      rw [hqq] at hq
      exact not_prefix_dropLast_self hpne hq
    have hcf := createFileLit_normals fs e.content (dir ++ ns) [] hpne
      (fun q hq h1 h2 => by rw [List.nil_append]; exact hch' q hq h1 h2)
      (by rw [List.nil_append]; exact htgt)
    simp only [List.nil_append] at hcf
    refine ⟨FS.mk ((dir ++ ns, e.content) ::
        fs.files.filter (fun r => !(r.1 == dir ++ ns))) fs.dirs,
      stepLog debug (litPath dir comps), ?_, ?_⟩
    · rw [unzipStep_eq_of_out dir true debug fs hout]
      rw [if_neg (by simp)]
      have hca2 : createDirAllLit fs (litPath dir comps).dropLast = (fs, true) := by
        rw [hlit, dropLast_map_normal]
        exact hca
      have hcf2 : createFileLit fs e.content [] (litPath dir comps) =
          some (FS.mk ((dir ++ ns, e.content) ::
            fs.files.filter (fun r => !(r.1 == dir ++ ns))) fs.dirs) := by
        rw [hlit]
        exact hcf
      rw [writeEntry_file_ok hdF hca2 hcf2]
    · have hfl : (FS.mk ((dir ++ ns, e.content) ::
          fs.files.filter (fun r => !(r.1 == dir ++ ns))) fs.dirs).files =
          (dir ++ ns, e.content) :: fs.files.filter (fun r => !(r.1 == dir ++ ns)) := rfl
      rw [fileLookup_insert hfl (dir ++ ns), if_pos rfl]

/-- C2 counterexample: the entry `a/../b` resolves to `t/b`, which exists as
a regular file, yet the no-force run does not abort: the program stats the
literal path `t/a/../b` (false, `t/a` is absent), bypasses the guard and
silently truncates `t/b` to the entry's bytes. -/
theorem c2_counterexample :
    outPathOf ["t"] ⟨"a/../b", [9], 1, [], none⟩ = some ["t", "b"] ∧
    pathExists ⟨[(["t", "b"], [5])], [[], ["t"]]⟩ ["t", "b"] = true ∧
    (unzip_file ["t"] false false [some ⟨"a/../b", [9], 1, [], none⟩]
      ⟨[(["t", "b"], [5])], [[], ["t"]]⟩).err = none ∧
    fileLookup (unzip_file ["t"] false false [some ⟨"a/../b", [9], 1, [], none⟩]
      ⟨[(["t", "b"], [5])], [[], ["t"]]⟩).fs ["t", "b"] = some [9] := by
  decide

/-- C2 witness: re-extracting `f.txt` over an existing `t/f.txt` without
force aborts with the already-exists error and the force hint; with force
the entry is rewritten with the new content. -/
theorem c2_witness :
    (unzip_file ["t"] false false [some ⟨"f.txt", [9], 1, [], none⟩]
        ⟨[(["t", "f.txt"], [1])], [[], ["t"]]⟩ =
      ⟨⟨[(["t", "f.txt"], [1])], [[], ["t"]]⟩, [],
        some (.alreadyExists [.normal "t", .normal "f.txt"])⟩) ∧
    errLabel (.alreadyExists [.normal "t", .normal "f.txt"]) =
      "Use --force/-f to overwrite" ∧
    ∃ fs2 lg, unzipStep ["t"] true false ⟨[(["t", "f.txt"], [1])], [[], ["t"]]⟩
        ⟨"f.txt", [9], 1, [], none⟩ = (fs2, lg, none) ∧
      fileLookup fs2 ["t", "f.txt"] = some [9] := by
  have h := c2_conflict_abort ["t"] false ⟨[(["t", "f.txt"], [1])], [[], ["t"]]⟩
    ⟨"f.txt", [9], 1, [], none⟩ [] [PathComp.normal "f.txt"] (by decide)
  refine ⟨?_, ?_, ?_⟩
  · exact (h.1 (by decide)).1
  · exact (h.1 (by decide)).2.2
  · exact h.2.2 ["f.txt"] (by decide) (by decide) (by decide) (by decide) (by decide)

/-- C3 (amended): extracting an archive of decodable file entries whose
sanitized names are nonempty runs of plain components (no `..`, no leading
`./`) into an existing target directory succeeds and reproduces every
entry's bytes at its output path — intermediate directories created
automatically — provided the target's ancestor chain exists as directories
with no files on it, no pre-existing file sits at or below the target, no
pre-existing directory sits at any entry's output path, and the entries'
output paths are pairwise non-conflicting (no two equal, none an ancestor of
another).  (Amended from the original claim, which omitted the pairwise
non-conflict condition — an archive whose names collide aborts with the
already-exists error, see the counterexample — and whose "safe names"
allowed in-bounds `..` components, on which the literal-path
`create_dir_all` fails with "Fail to create".) -/
theorem c3_roundtrip (dir : List String) (debug : Bool) (es : List EntryData) (fs : FS)
    (h1 : ∀ q ∈ dir.inits, q ∈ fs.dirs ∧ fileLookup fs q = none)
    (h2 : ∀ r ∈ fs.files, ¬ dir <+: r.1)
    (h3 : ∀ e ∈ es, ∀ p ∈ fs.dirs, plainOutOf dir e ≠ some p)
    (h4 : ∀ e ∈ es, plainFileEntry e = true)
    (h5 : List.Pairwise
      (fun a b => sepOutB (plainOutOf dir a) (plainOutOf dir b) = true) es) :
    (unzip_file dir false debug (es.map some) fs).err = none ∧
    ∀ e ∈ es, ∀ p, plainOutOf dir e = some p →
      fileLookup (unzip_file dir false debug (es.map some) fs).fs p = some e.content := by
  obtain ⟨herr, hc, -, -⟩ := unzip_file_clean dir debug fs es [] fs
    (fun q hq => h1 q ((List.mem_inits _ _).mpr hq))
    (fun e he => absurd he (List.not_mem_nil e))
    (fun r hr => .inl hr)
    (fun d hd => .inl hd)
    h2 h4
    (fun e he p hp hmem => h3 e he p hmem hp)
    (fun e he d hd => absurd hd (List.not_mem_nil d))
    h5
  exact ⟨herr, fun e he p hp => hc e (by rw [List.nil_append]; exact he) p hp⟩

/-- C3 counterexample: two entries with the same safe name `file1.txt`, an
empty target directory, and no force — the claim as stated promises success,
but the second entry hits the freshly written first file and the run aborts
with the already-exists error. -/
theorem c3_counterexample :
    (enclosedName "file1.txt").isSome = true ∧
    (unzip_file ["t"] false false
        [some ⟨"file1.txt", [1], 1, [], none⟩, some ⟨"file1.txt", [2], 1, [], none⟩]
        ⟨[], [[], ["t"]]⟩).err =
      some (.alreadyExists [.normal "t", .normal "file1.txt"]) := by
  decide

/-- C3 witness: a two-entry archive with a nested name `a_dir/file2.txt`
extracts successfully into an empty target, creating the intermediate
directory and reproducing the bytes. -/
theorem c3_witness :
    (unzip_file ["t"] false false
        ([⟨"file1.txt", [1, 2], 2, [], none⟩,
          ⟨"a_dir/file2.txt", [3, 4], 2, [], none⟩].map some) ⟨[], [[], ["t"]]⟩).err
      = none ∧
    fileLookup (unzip_file ["t"] false false
        ([⟨"file1.txt", [1, 2], 2, [], none⟩,
          ⟨"a_dir/file2.txt", [3, 4], 2, [], none⟩].map some) ⟨[], [[], ["t"]]⟩).fs
        ["t", "a_dir", "file2.txt"] = some [3, 4] := by
  have h := c3_roundtrip ["t"] false
    [⟨"file1.txt", [1, 2], 2, [], none⟩, ⟨"a_dir/file2.txt", [3, 4], 2, [], none⟩]
    ⟨[], [[], ["t"]]⟩ (by decide) (by decide) (by decide) (by decide) (by decide)
  exact ⟨h.1, h.2 ⟨"a_dir/file2.txt", [3, 4], 2, [], none⟩ (by decide)
    ["t", "a_dir", "file2.txt"] (by decide)⟩

/-- C4 (amended): the listing timestamp follows a first-match-wins
precedence — if the *first* extended-timestamp extra field yields a
modification time, that value is interpreted as Unix epoch seconds and
localized; otherwise the native last-modified field is interpreted as a
naive local civil time, the fixed default zip datetime (1980-01-01,
naive encoding 315532800) standing in when the field is absent and the
epoch standing in when it is unparseable; and a row is produced for every
decodable entry regardless of its timestamps.  (Amended from the original
claim, which keyed tier one on *any* extended-timestamp field yielding a
modification time: the loop breaks at the first such field even when its
`mod_time()` is empty, see the counterexample.) -/
theorem c4_timestamp_precedence (fields : List ExtraField) (lastMod : Option ZipDT) :
    (∀ ts, loopExtTimestamp fields = some ts →
        resolveModified fields lastMod = .extUnix ts) ∧
    (loopExtTimestamp fields = none → ∀ z, lastMod = some z →
        resolveModified fields lastMod = .nativeLocal (z.parsedNaive.getD 0)) ∧
    (loopExtTimestamp fields = none → lastMod = none →
        resolveModified fields lastMod = .nativeLocal 315532800) ∧
    (∀ (entries : List (Option EntryData)) (e : EntryData),
        some e ∈ entries → rowOf e ∈ list_files entries) := by
  refine ⟨?_, ?_, ?_, ?_⟩
  · intro ts h
    unfold resolveModified
    rw [h]
  · intro h z hz
    unfold resolveModified
    rw [h, hz]
    rfl
  · intro h hz
    unfold resolveModified
    rw [h, hz]
    rfl
  · intro entries e he
    rw [list_files_eq]
    exact List.mem_map_of_mem rowOf (List.reduceOption_mem_iff.mpr he)

/-- C4 counterexample: an entry carrying two extended-timestamp fields, the
first without a modification time and the second yielding 42.  An
extended-timestamp field is present and yields a modification time, yet the
resolution falls through to the native tier (the scan breaks at the first
extended-timestamp field), refuting the claim as stated. -/
theorem c4_counterexample :
    ExtraField.extendedTimestamp (some 42) ∈
      [ExtraField.extendedTimestamp none, ExtraField.extendedTimestamp (some 42)] ∧
    resolveModified [ExtraField.extendedTimestamp none, ExtraField.extendedTimestamp (some 42)]
        (some ⟨33, 0, some 100⟩) = ModTime.nativeLocal 100 ∧
    ModTime.nativeLocal 100 ≠ ModTime.extUnix 42 := by
  decide

/-- C4 witness: a first extended-timestamp field yielding 7 wins over the
native field. -/
theorem c4_witness :
    resolveModified [ExtraField.otherField, ExtraField.extendedTimestamp (some 7)]
        (some ⟨33, 0, some 100⟩) = ModTime.extUnix 7 :=
  (c4_timestamp_precedence [ExtraField.otherField, ExtraField.extendedTimestamp (some 7)]
    (some ⟨33, 0, some 100⟩)).1 7 (by decide)

/-- C5 (confirmed): in both listing and extraction, an index whose entry
cannot be decoded (`by_index` fails, modelled as `none`) is skipped without
failing the operation, and the remaining entries are processed exactly as
they would be without it, in the same ascending order. -/
theorem c5_skip_undecodable (dir : List String) (force debug : Bool)
    (pre post : List (Option EntryData)) (fs : FS) :
    list_files (pre ++ none :: post) = list_files (pre ++ post) ∧
    unzip_file dir force debug (pre ++ none :: post) fs =
      unzip_file dir force debug (pre ++ post) fs := by
  induction pre generalizing fs with
  | nil =>
    constructor
    · rw [List.nil_append, List.nil_append]
      rw [list_files_eq, list_files_eq, List.reduceOption_cons_of_none]
    · rw [List.nil_append, List.nil_append, unzip_file_cons_none]
  | cons oe pre ih =>
    cases oe with
    | none =>
      constructor
      · rw [List.cons_append, List.cons_append, list_files_eq, list_files_eq,
          List.reduceOption_cons_of_none, List.reduceOption_cons_of_none,
          ← list_files_eq, ← list_files_eq]
        exact (ih fs).1
      · rw [List.cons_append, List.cons_append,
          unzip_file_cons_none dir force debug (pre ++ none :: post) fs,
          unzip_file_cons_none dir force debug (pre ++ post) fs]
        exact (ih fs).2
    | some e =>
      constructor
      · rw [List.cons_append, List.cons_append, list_files_eq, list_files_eq,
          List.reduceOption_cons_of_some, List.reduceOption_cons_of_some,
          List.map_cons, List.map_cons, ← list_files_eq, ← list_files_eq,
          (ih fs).1]
      · rw [List.cons_append, List.cons_append]
        rcases hstep : unzipStep dir force debug fs e with ⟨fs1, lg, err⟩
        cases err with
        | some err0 =>
          rw [unzip_file_cons_err hstep (pre ++ none :: post),
            unzip_file_cons_err hstep (pre ++ post)]
        | none =>
          rw [unzip_file_cons_ok hstep (pre ++ none :: post),
            unzip_file_cons_ok hstep (pre ++ post), (ih fs1).2]

/-- C6 (amended): the listing has exactly one row per decodable entry, in
archive order, with no sorting, filtering, or deduplication even for
colliding names, and a row's size equals the entry's declared uncompressed
size whenever that size fits in a signed 64-bit integer (below `2 ^ 63`).
(Amended from the original claim, which asserted the size equality for all
sizes: the `u64` value is cast with `as i64` into `Value::filesize` and
wraps for sizes of `2 ^ 63` and above, see the counterexample.) -/
theorem c6_listing_rows :
    (∀ entries : List (Option EntryData),
        list_files entries = entries.reduceOption.map rowOf) ∧
    (∀ e : EntryData, e.size < 2 ^ 63 → (rowOf e).size = (e.size : Int)) := by
  refine ⟨list_files_eq, ?_⟩
  intro e h
  unfold rowOf u64ToI64
  dsimp only
  rw [Nat.mod_eq_of_lt (by omega), if_pos h]

/-- C6 counterexample: an entry whose declared uncompressed size is
`2 ^ 63 + 5` is listed with the wrapped negative size, not its byte
length. -/
theorem c6_counterexample :
    list_files [some ⟨"big", [], 2 ^ 63 + 5, [], none⟩] =
      [⟨"big", -(9223372036854775803 : Int), ModTime.nativeLocal 315532800⟩] ∧
    (-(9223372036854775803 : Int)) ≠ ((2 ^ 63 + 5 : Nat) : Int) := by
  decide

/-- C6 witness: one-row listing with the exact size for a small entry. -/
theorem c6_witness :
    list_files [some ⟨"a", [7], 1, [], none⟩] = [rowOf ⟨"a", [7], 1, [], none⟩] ∧
    (rowOf ⟨"a", [7], 1, [], none⟩).size = (1 : Int) := by
  have h := c6_listing_rows
  exact ⟨by rw [h.1 [some ⟨"a", [7], 1, [], none⟩]]; rfl,
    h.2 ⟨"a", [7], 1, [], none⟩ (by decide)⟩

/-- C8 (confirmed): two extraction runs differing only in the verbose/debug
flag produce the same filesystem and the same result; the diagnostic lines
are the only difference. -/
theorem c8_verbose_no_effect (dir : List String) (force : Bool)
    (entries : List (Option EntryData)) (fs : FS) :
    (unzip_file dir force true entries fs).fs = (unzip_file dir force false entries fs).fs ∧
    (unzip_file dir force true entries fs).err =
      (unzip_file dir force false entries fs).err :=
  unzip_file_debug_eq dir force entries fs

/-- C9 (amended): a listing row's size is the entry's declared `u64`
uncompressed size cast with `as i64`: for sizes below `2 ^ 63` it is
non-negative and equals the size exactly; for sizes from `2 ^ 63` up to
`2 ^ 64` it wraps to the negative value `size - 2 ^ 64`.  (Amended from the
original claim, which asserted non-negativity and exact equality for all
possible `u64` sizes — refuted at `2 ^ 63`, see the counterexample.) -/
theorem c9_size_cast (e : EntryData) :
    (e.size < 2 ^ 63 → (rowOf e).size = (e.size : Int) ∧ 0 ≤ (rowOf e).size) ∧
    (2 ^ 63 ≤ e.size → e.size < 2 ^ 64 →
      (rowOf e).size = (e.size : Int) - 2 ^ 64 ∧ (rowOf e).size < 0) := by
  constructor
  · intro h
    unfold rowOf u64ToI64
    dsimp only
    rw [Nat.mod_eq_of_lt (by omega), if_pos h]
    exact ⟨rfl, Int.ofNat_nonneg e.size⟩
  · intro h1 h2
    unfold rowOf u64ToI64
    dsimp only
    rw [Nat.mod_eq_of_lt h2, if_neg (by omega)]
    refine ⟨rfl, ?_⟩
    have hc : (e.size : Int) < 2 ^ 64 := by exact_mod_cast h2
    omega

/-- C9 counterexample: the declared size `2 ^ 63` is listed as the negative
wrapped value, refuting non-negativity and exact equality. -/
theorem c9_counterexample :
    list_files [some ⟨"x", [], 2 ^ 63, [], none⟩] = [rowOf ⟨"x", [], 2 ^ 63, [], none⟩] ∧
    (rowOf ⟨"x", [], 2 ^ 63, [], none⟩).size = -(2 ^ 63 : Int) ∧
    ¬ (0 ≤ (rowOf ⟨"x", [], 2 ^ 63, [], none⟩).size ∧
        (rowOf ⟨"x", [], 2 ^ 63, [], none⟩).size = ((2 ^ 63 : Nat) : Int)) := by
  decide

/-- C9 witness: a small size is listed exactly and non-negatively. -/
theorem c9_witness :
    (rowOf ⟨"y", [1], 1, [], none⟩).size = ((1 : Nat) : Int) ∧
    0 ≤ (rowOf ⟨"y", [1], 1, [], none⟩).size :=
  (c9_size_cast ⟨"y", [1], 1, [], none⟩).1 (by decide)

/-- C10 (amended): the pre-write existence check does not distinguish files
from directories: any entry — directory entries included — whose sanitized
name is a plain run of components and whose joined output path is an
existing directory reachable through existing directories aborts a no-force
run with the already-exists error instead of treating the directory as
satisfying the entry.  (Amended from the original claim, which keyed the
check on the *resolved* output path: for a name with in-bounds `..`
components the program stats the literal unnormalized path, and when that
walk fails the run instead fails later with the "Fail to create" error, see
the counterexample.) -/
theorem c10_exists_check_dirs (dir : List String) (debug : Bool) (fs : FS)
    (e : EntryData) (rest : List (Option EntryData)) (comps : List PathComp)
    (ns : List String)
    (hout : enclosedName e.raw_name = some comps)
    (hns : asNormals comps = some ns) (hnsne : ns ≠ [])
    (hch : ∀ q ∈ (dir ++ ns).inits, q ≠ [] → q ∈ fs.dirs) :
    unzip_file dir false debug (some e :: rest) fs =
      ⟨fs, stepLog debug (litPath dir comps),
        some (.alreadyExists (litPath dir comps))⟩ := by
  have hcomps : comps = ns.map PathComp.normal := asNormals_inv hns
  have hch' : ∀ q, q <+: dir ++ ns → q ≠ [] → q ∈ fs.dirs :=
    fun q hq => hch q ((List.mem_inits _ _).mpr hq)
  have hpne : dir ++ ns ≠ [] := fun hh => hnsne (List.append_eq_nil.mp hh).2
  have hst : statLit fs [] ((dir ++ ns).map PathComp.normal) = true := by
    refine statLit_normals_true fs (dir ++ ns) [] hpne ?_ ?_
    · intro q hq h1 h2
      rw [List.nil_append]
      exact hch' q hq h1
    · rw [List.nil_append]
      exact pathExists_mem_dirs (hch' _ (List.prefix_refl _) hpne)
  have hst2 : statLit fs [] (litPath dir comps) = true := by
    rw [hcomps, litPath_normals]
    exact hst
  rw [unzip_file_cons_err (unzipStep_abort dir debug hout hst2) rest]

/-- C10 counterexample: the entry `a/../b` resolves to the existing
directory `t/b`, but the program stats and then creates along the literal
path `t/a/../b`; with `t/a` absent the run fails with the "Fail to create"
error (EISDIR at the end of the walk), not with the already-exists abort
the claim promises. -/
theorem c10_counterexample :
    outPathOf ["t"] ⟨"a/../b", [9], 1, [], none⟩ = some ["t", "b"] ∧
    ["t", "b"] ∈ (FS.mk [] [[], ["t"], ["t", "b"]]).dirs ∧
    (unzip_file ["t"] false false [some ⟨"a/../b", [9], 1, [], none⟩]
      ⟨[], [[], ["t"], ["t", "b"]]⟩).err =
      some (.failCreate [.normal "t", .normal "a", .parentDir, .normal "b"]) ∧
    errLabel (.failCreate [.normal "t", .normal "a", .parentDir, .normal "b"]) ≠
      "Use --force/-f to overwrite" := by
  decide

/-- C10 witness: extracting `a/b.txt` creates the directory `t/a` as an
ancestor; a subsequent directory entry `a/` in the same run then aborts with
the already-exists error on that very directory. -/
theorem c10_witness :
    ["t", "a"] ∈ (unzip_file ["t"] false false [some ⟨"a/b.txt", [7], 1, [], none⟩]
      ⟨[], [[], ["t"]]⟩).fs.dirs ∧
    unzip_file ["t"] false false [some ⟨"a/", [], 0, [], none⟩]
        ⟨[(["t", "a", "b.txt"], [7])], [[], ["t"], ["t", "a"]]⟩ =
      ⟨⟨[(["t", "a", "b.txt"], [7])], [[], ["t"], ["t", "a"]]⟩, [],
        some (.alreadyExists [.normal "t", .normal "a"])⟩ := by
  refine ⟨by decide, ?_⟩
  exact c10_exists_check_dirs ["t"] false
    ⟨[(["t", "a", "b.txt"], [7])], [[], ["t"], ["t", "a"]]⟩
    ⟨"a/", [], 0, [], none⟩ [] [PathComp.normal "a"] ["a"]
    (by decide) (by decide) (by decide) (by decide)

end NuUnzip
